import Mathlib

/-!
Verification of the pure path-manipulation core of `flexlib` (`flexlib/flexpath.py`,
class `FlexPath`) against its design specification.

`FlexPath` is a `str` subclass; a value is entirely determined by its underlying
string, so paths are modelled as Lean `String`s and every method becomes a pure
function of the string.  The methods delegate to the CPython `posixpath`
routines (`os.path.normpath`, `os.path.join`, `os.path.dirname`,
`os.path.commonpath`, `os.path.relpath`, `os.path.abspath`, `os.path.isabs`),
which are embedded here as well, following the CPython implementation of those
functions line by line.  All computations are carried out on `List Char`
(the `data` of a `String`), with Python string primitives (`split`, `rfind`,
`rstrip`, `startswith`, `endswith`, `count`) embedded as recursive functions.
-/

/-! ## Python string primitives -/

/-- Python `s.startswith(p)` for strings viewed as character lists. -/
def startsWithD : List Char → List Char → Bool
  | [], _ => true
  | _ :: _, [] => false
  | x :: xs, y :: ys => x = y && startsWithD xs ys

@[simp] theorem startsWithD_nil (cs : List Char) : startsWithD [] cs = true := by
  cases cs <;> rfl

@[simp] theorem startsWithD_cons_nil (x : Char) (xs : List Char) :
    startsWithD (x :: xs) [] = false := rfl

@[simp] theorem startsWithD_cons_cons (x y : Char) (xs ys : List Char) :
    startsWithD (x :: xs) (y :: ys) = (decide (x = y) && startsWithD xs ys) := rfl

/-- Python `s.endswith(c)` for a single-character suffix. -/
def endsWithChar (c : Char) (cs : List Char) : Bool :=
  match cs.getLast? with
  | some d => d = c
  | none => false

/-- Python `s.rstrip(c)` for a single strip character: remove all trailing
occurrences of `c`. -/
def rstripChar (c : Char) (cs : List Char) : List Char :=
  (cs.reverse.dropWhile (fun d => d = c)).reverse

/-- Python `s.split(sep)` for a one-character separator: split on every
occurrence, keeping empty pieces (so the result is always nonempty). -/
def splitChar (sep : Char) : List Char → List (List Char)
  | [] => [[]]
  | x :: xs =>
    if x = sep then [] :: splitChar sep xs
    else
      match splitChar sep xs with
      | [] => [[x]]
      | h :: t => (x :: h) :: t

/-- Python `sep.join(pieces)` for a one-character separator. -/
def joinSep (sep : Char) : List (List Char) → List Char
  | [] => []
  | [p] => p
  | p :: q :: ps => p ++ sep :: joinSep sep (q :: ps)

/-- Locate the last occurrence of `c` in `cs`, as Python `i = s.rfind(c)` does,
returning the pieces before and after it: `some (a, b)` with `cs = a ++ c :: b`
and no `c` in `b` (so `a = s[:i]` and `b = s[i+1:]`), or `none` when `c` does
not occur (`i == -1`). -/
def rfindSplit (c : Char) : List Char → Option (List Char × List Char)
  | [] => none
  | x :: xs =>
    match rfindSplit c xs with
    | some (a, b) => some (x :: a, b)
    | none => if x = c then some ([], xs) else none

/-! ### Lemmas about the string primitives -/

theorem splitChar_ne_nil (sep : Char) (cs : List Char) : splitChar sep cs ≠ [] := by
  cases cs with
  | nil => simp [splitChar]
  | cons x xs =>
    simp only [splitChar]
    split
    · simp
    · split <;> simp

@[simp] theorem splitChar_nil (sep : Char) : splitChar sep [] = [[]] := rfl

@[simp] theorem splitChar_cons_sep (sep : Char) (xs : List Char) :
    splitChar sep (sep :: xs) = [] :: splitChar sep xs := by
  simp [splitChar]

theorem splitChar_cons_ne (sep x : Char) (xs : List Char) (hx : x ≠ sep) :
    ∃ h t, splitChar sep xs = h :: t ∧ splitChar sep (x :: xs) = (x :: h) :: t := by
  obtain ⟨h, t, hht⟩ : ∃ h t, splitChar sep xs = h :: t := by
    cases hs : splitChar sep xs with
    | nil => exact absurd hs (splitChar_ne_nil sep xs)
    | cons h t => exact ⟨h, t, rfl⟩
  exact ⟨h, t, hht, by simp [splitChar, hx, hht]⟩

/-- Splitting a string that contains no separator yields a single piece. -/
theorem splitChar_of_not_mem (sep : Char) (cs : List Char) (h : sep ∉ cs) :
    splitChar sep cs = [cs] := by
  induction cs with
  | nil => rfl
  | cons x xs ih =>
    have hx : x ≠ sep := fun hc => h (hc ▸ List.mem_cons_self x xs)
    have hxs : sep ∉ xs := fun hc => h (List.mem_cons_of_mem x hc)
    obtain ⟨h', t', hht, heq⟩ := splitChar_cons_ne sep x xs hx
    rw [heq, ih hxs] at *
    simp_all

/-- Splitting distributes over an occurrence of the separator. -/
theorem splitChar_append (sep : Char) (a b : List Char) :
    splitChar sep (a ++ sep :: b) = splitChar sep a ++ splitChar sep b := by
  induction a with
  | nil => simp
  | cons x xs ih =>
    by_cases hx : x = sep
    · subst hx
      simp [ih]
    · obtain ⟨h', t', hht, heq⟩ := splitChar_cons_ne sep x (xs ++ sep :: b) hx
      obtain ⟨h'', t'', hht', heq'⟩ := splitChar_cons_ne sep x xs hx
      rw [List.cons_append, heq, heq']
      rw [ih, hht'] at hht
      simp only [List.cons_append] at hht
      injection hht with h1 h2
      simp [h1, h2]

/-- No piece produced by `splitChar` contains the separator. -/
theorem splitChar_pieces (sep : Char) (cs : List Char) :
    ∀ p ∈ splitChar sep cs, sep ∉ p := by
  induction cs with
  | nil => simp
  | cons x xs ih =>
    by_cases hx : x = sep
    · subst hx
      simp only [splitChar_cons_sep]
      intro p hp
      rcases List.mem_cons.mp hp with h | h
      · simp [h]
      · exact ih p h
    · obtain ⟨h', t', hht, heq⟩ := splitChar_cons_ne sep x xs hx
      rw [heq]
      intro p hp
      rcases List.mem_cons.mp hp with h | h
      · subst h
        intro hmem
        rcases List.mem_cons.mp hmem with h | h
        · exact hx h.symm
        · exact ih h' (hht ▸ List.mem_cons_self h' t') h
      · exact ih p (hht ▸ List.mem_cons_of_mem h' h)

@[simp] theorem joinSep_nil (sep : Char) : joinSep sep [] = [] := rfl

@[simp] theorem joinSep_single (sep : Char) (p : List Char) : joinSep sep [p] = p := rfl

theorem joinSep_cons₂ (sep : Char) (p q : List Char) (ps : List (List Char)) :
    joinSep sep (p :: q :: ps) = p ++ sep :: joinSep sep (q :: ps) := rfl

theorem joinSep_cons_of_ne_nil (sep : Char) (p : List Char) (ps : List (List Char))
    (h : ps ≠ []) : joinSep sep (p :: ps) = p ++ sep :: joinSep sep ps := by
  cases ps with
  | nil => exact absurd rfl h
  | cons q t => rfl

/-- Joining the pieces of a split recovers the original string. -/
theorem joinSep_splitChar (sep : Char) (cs : List Char) :
    joinSep sep (splitChar sep cs) = cs := by
  induction cs with
  | nil => rfl
  | cons x xs ih =>
    by_cases hx : x = sep
    · rw [hx, splitChar_cons_sep,
        joinSep_cons_of_ne_nil sep [] (splitChar sep xs) (splitChar_ne_nil sep xs), ih]
      simp
    · obtain ⟨h', t', hht, heq⟩ := splitChar_cons_ne sep x xs hx
      rw [heq]
      cases t' with
      | nil => rw [hht] at ih; simpa using ih
      | cons u v =>
        rw [joinSep_cons₂]
        rw [hht, joinSep_cons_of_ne_nil sep h' (u :: v) (by simp)] at ih
        simpa using ih

theorem rfindSplit_eq_none (c : Char) (cs : List Char) (h : c ∉ cs) :
    rfindSplit c cs = none := by
  induction cs with
  | nil => rfl
  | cons x xs ih =>
    have hx : x ≠ c := fun hc => h (hc ▸ List.mem_cons_self x xs)
    have hxs : c ∉ xs := fun hc => h (List.mem_cons_of_mem x hc)
    simp [rfindSplit, ih hxs, hx]

theorem rfindSplit_of_mem (c : Char) (cs : List Char) (h : c ∈ cs) :
    ∃ a b, rfindSplit c cs = some (a, b) := by
  induction cs with
  | nil => simp at h
  | cons x xs ih =>
    rcases List.mem_cons.mp h with hcx | hcxs
    · cases hr : rfindSplit c xs with
      | some ab => exact ⟨x :: ab.1, ab.2, by simp [rfindSplit, hr]⟩
      | none => exact ⟨[], xs, by simp [rfindSplit, hr, hcx.symm]⟩
    · obtain ⟨a, b, hab⟩ := ih hcxs
      exact ⟨x :: a, b, by simp [rfindSplit, hab]⟩

theorem rfindSplit_eq_some (c : Char) (cs a b : List Char)
    (h : rfindSplit c cs = some (a, b)) : cs = a ++ c :: b ∧ c ∉ b := by
  induction cs generalizing a b with
  | nil => simp [rfindSplit] at h
  | cons x xs ih =>
    simp only [rfindSplit] at h
    cases hr : rfindSplit c xs with
    | some ab =>
      obtain ⟨a', b'⟩ := ab
      rw [hr] at h
      simp only [Option.some.injEq, Prod.mk.injEq] at h
      obtain ⟨hxs, hnb⟩ := ih a' b' hr
      refine ⟨?_, ?_⟩
      · rw [← h.1, ← h.2, hxs]; rfl
      · rw [← h.2]; exact hnb
    | none =>
      rw [hr] at h
      by_cases hx : x = c
      · rw [if_pos hx] at h
        simp only [Option.some.injEq, Prod.mk.injEq] at h
        refine ⟨by rw [← h.1, ← h.2]; simp [hx], ?_⟩
        rw [← h.2]
        intro hmem
        obtain ⟨a', b', hab⟩ := rfindSplit_of_mem c xs hmem
        rw [hab] at hr
        exact absurd hr (by simp)
      · rw [if_neg hx] at h
        exact absurd h (by simp)

theorem rfindSplit_append (c : Char) (a b : List Char) (hb : c ∉ b) :
    rfindSplit c (a ++ c :: b) = some (a, b) := by
  induction a with
  | nil => simp [rfindSplit, rfindSplit_eq_none c b hb]
  | cons x xs ih => simp [rfindSplit, ih]

/-- Stripping does nothing to a list not ending in the strip character. -/
theorem rstripChar_of_getLast_ne (c : Char) (cs : List Char)
    (h : cs.getLast? ≠ some c) : rstripChar c cs = cs := by
  unfold rstripChar
  cases hrev : cs.reverse with
  | nil => simp_all [List.reverse_eq_nil_iff.mp hrev]
  | cons x xs =>
    have hx : x ≠ c := by
      intro hc
      apply h
      have : cs = (x :: xs).reverse := by rw [← hrev, List.reverse_reverse]
      rw [this, hc]
      simp
    rw [List.dropWhile_cons_of_neg (by simpa using hx), ← hrev, List.reverse_reverse]

/-- Stripping a list that does not contain the strip character does nothing. -/
theorem rstripChar_of_not_mem (c : Char) (cs : List Char) (h : c ∉ cs) :
    rstripChar c cs = cs := by
  apply rstripChar_of_getLast_ne
  intro hc
  have hdec : cs.dropLast ++ [c] = cs :=
    List.dropLast_append_getLast? c (Option.mem_def.mpr hc)
  exact h (by rw [← hdec]; simp)

/-! ## CPython `posixpath` routines used by `FlexPath`

These follow the CPython implementation (`Lib/posixpath.py`) of the functions
that `flexpath.py` calls, translated statement by statement. -/

/-- The path component `..` (CPython `pardir`). -/
def ddPiece : List Char := ['.', '.']

/-- The path component `.` (CPython `curdir`). -/
def dotPiece : List Char := ['.']

/-- Number of root slashes kept by `posixpath.normpath`: `initial_slashes` is
`path.startswith('/')`, promoted to `2` when the path starts with exactly two
slashes (POSIX allows one or two initial slashes; three or more collapse to
one). -/
def initialSlashes (cs : List Char) : Nat :=
  if startsWithD ['/'] cs then
    if startsWithD ['/', '/'] cs ∧ ¬ startsWithD ['/', '/', '/'] cs then 2 else 1
  else 0

/-- Loop body of `posixpath.normpath`: skip empty and `.` components; append a
component unless it is a `..` that must pop the previous retained component
(`..` is appended when the path is relative and nothing has been retained, or
when the previous retained component is itself `..`; on an absolute path with
nothing retained it is dropped). -/
def normStep (hasRoot : Bool) (acc : List (List Char)) (comp : List Char) : List (List Char) :=
  if comp = [] ∨ comp = dotPiece then acc
  else if comp ≠ ddPiece ∨ (hasRoot = false ∧ acc = []) ∨ (acc ≠ [] ∧ acc.getLast? = some ddPiece)
    then acc ++ [comp]
  else if acc ≠ [] then acc.dropLast
  else acc

/-- CPython `posixpath.normpath` on character lists: empty input yields `.`;
otherwise split on `/`, fold `normStep` over the components, rejoin with `/`,
restore the retained initial slashes, and return `.` when the result would be
empty. -/
def normpathData (cs : List Char) : List Char :=
  if cs = [] then dotPiece
  else
    let k := initialSlashes cs
    let newComps := (splitChar '/' cs).foldl (normStep (k ≠ 0)) []
    let path := List.replicate k '/' ++ joinSep '/' newComps
    if path = [] then dotPiece else path

/-- CPython `os.path.normpath` at the `String` interface. -/
def normpath (s : String) : String := ⟨normpathData s.data⟩

/-- CPython `os.path.isabs`: the path starts with `/`. -/
def isAbs (s : String) : Bool := startsWithD ['/'] s.data

/-- One step of CPython `posixpath.join`: an absolute fragment replaces the
accumulated path; otherwise the fragment is appended, inserting a `/` unless
the accumulated path is empty or already ends with `/`. -/
def pjoin2 (path b : List Char) : List Char :=
  if startsWithD ['/'] b then b
  else if path = [] ∨ endsWithChar '/' path then path ++ b
  else path ++ '/' :: b

/-- CPython `posixpath.join(a, *p)`: fold `pjoin2` over the later fragments. -/
def pjoinList (a : List Char) (ps : List (List Char)) : List Char :=
  ps.foldl pjoin2 a

/-- CPython `posixpath.dirname`: everything up to and including the last `/`
(`head = p[:i+1]`), right-stripped of slashes unless it consists only of
slashes; the empty string when there is no `/`. -/
def dirnameData (cs : List Char) : List Char :=
  match rfindSplit '/' cs with
  | none => []
  | some (a, _) =>
    let head := a ++ ['/']
    if head ≠ [] ∧ head ≠ List.replicate head.length '/' then rstripChar '/' head else head

/-! ## The `FlexPath` class (`flexlib/flexpath.py`) -/

/-- Construction, `FlexPath.__new__`: the empty string is preserved as is,
every other input is normalized with `os.path.normpath`.  The resulting string
is the entire state of a `FlexPath` value. -/
def flexNew (s : String) : String := if s = "" then "" else normpath s

/-- Failure taxonomy of the specification (section 7); each `raise ValueError`
site of the pure operations is mapped onto it. -/
inductive FlexErr where
  | invalidArgument
  | incompatibleAnchors
  | notASubpath
  deriving DecidableEq, Repr

/-- Method `FlexPath._split_parts` (exposed as the property `parts`). -/
def splitParts (s : String) : List String :=
  if s = "" then []
  else if s = "/" then ["/"]
  else
    let comps := ((splitChar '/' s.data).filter (fun c => c ≠ [])).map
      (fun c => (⟨c⟩ : String))
    if startsWithD ['/'] s.data then "/" :: comps else comps

/-- Method `FlexPath._last_component` (exposed as the property `name`):
the input `/` reports `/`; otherwise trailing slashes are stripped and the part
after the last remaining `/` is returned (`s[idx+1:] if idx >= 0 else s`). -/
def lastComponent (s : String) : String :=
  if s = "/" then "/"
  else
    let t := rstripChar '/' s.data
    if t = [] then ""
    else
      match rfindSplit '/' t with
      | some (_, b) => ⟨b⟩
      | none => ⟨t⟩

/-- Property `FlexPath.name`. -/
def name (s : String) : String := lastComponent s

/-- Property `FlexPath.suffix`: the extension of `name` from its last dot on;
empty when `name` is empty or `/`, or when the last dot is absent or at
position `0` (`i <= 0`). -/
def suffix (s : String) : String :=
  let n := name s
  if n = "" ∨ n = "/" then ""
  else
    match rfindSplit '.' n.data with
    | none => ""
    | some (a, b) => if a = [] then "" else ⟨'.' :: b⟩

/-- Property `FlexPath.suffixes`: empty when `name` is empty, or starts with a
dot and contains exactly one dot; otherwise a dot is prepended to every piece
of `name.split('.')` after the first. -/
def suffixes (s : String) : List String :=
  let n := name s
  if n = "" ∨ (startsWithD ['.'] n.data ∧ n.data.count '.' = 1) then []
  else
    let parts := splitChar '.' n.data
    if parts.length ≤ 1 then []
    else parts.tail.map (fun p => (⟨'.' :: p⟩ : String))

/-- Property `FlexPath.stem`: `name` without its last suffix (`n[:i]` when the
last dot sits at a position `i > 0`, otherwise `name` itself). -/
def stem (s : String) : String :=
  let n := name s
  if n = "" ∨ n = "/" then n
  else
    match rfindSplit '.' n.data with
    | none => n
    | some (a, _) => if a = [] then n else ⟨a⟩

/-- Property `FlexPath.parent`: `/` is its own parent; otherwise trailing
slashes are stripped, an emptied string yields the relative marker `.`, and
otherwise `os.path.dirname` is taken (the marker `.` again when it is empty).
Results are wrapped back into `FlexPath` (`self._wrap`), i.e. normalized. -/
def parent (s : String) : String :=
  if s = "/" then s
  else
    let t := rstripChar '/' s.data
    if t = [] then flexNew "."
    else
      let d := dirnameData t
      flexNew (if d ≠ [] then (⟨d⟩ : String) else ".")

/-- Method `FlexPath.with_name`: rejects a replacement name that is empty or
contains a separator, and a receiver that is root or empty; otherwise the
parent is recombined with the new final component (directly for a `.` parent).
Both `raise ValueError` sites carry the `InvalidArgument` kind of the
specification's taxonomy. -/
def withName (s : String) (nm : String) : Except FlexErr String :=
  if nm.data.contains '/' ∨ nm = "" then .error .invalidArgument
  else if s = "" ∨ s = "/" then .error .invalidArgument
  else
    let p := parent s
    if p = "." then .ok (flexNew nm)
    else .ok (flexNew (p ++ "/" ++ nm))

/-- Method `FlexPath.with_suffix`: the new suffix must be empty or start with a
dot, and the receiver must have a name; the base is the receiver minus its name
(Python slice `str(self)[:-len(n)]`, with the guarded special case), and the
name's last dot-suffix (when the last dot position `i > 0`) is replaced. -/
def withSuffix (s : String) (suf : String) : Except FlexErr String :=
  if suf ≠ "" ∧ ¬ startsWithD ['.'] suf.data then .error .invalidArgument
  else
    let n := name s
    if n = "" ∨ n = "/" then .error .invalidArgument
    else
      let base : List Char :=
        if n.data.length ≠ s.data.length then s.data.take (s.data.length - n.data.length)
        else []
      let newName : List Char :=
        match rfindSplit '.' n.data with
        | none => n.data ++ suf.data
        | some (a, _) => if a = [] then n.data ++ suf.data else a ++ suf.data
      .ok (flexNew ⟨base ++ newName⟩)

/-- Method `FlexPath.joinpath`: no fragments return the receiver unchanged;
otherwise the fragments are joined with `os.path.join` and the result is
wrapped (normalized) as a new `FlexPath`. -/
def joinpath (s : String) (others : List String) : String :=
  if others = [] then s
  else flexNew ⟨pjoinList s.data (others.map String.data)⟩

/-- Operator `FlexPath.__truediv__` (`self / other`). -/
def truediv (s other : String) : String := joinpath s [other]

/-- Operator `FlexPath.__rtruediv__` (`other / self`):
`FlexPath(os.path.join(other, self))`. -/
def rtruediv (s other : String) : String := flexNew ⟨pjoin2 other.data s.data⟩

/-! ### Structure of normalized paths

`normpath` keeps at most two root slashes and a list of retained components in
which every component is nonempty, slash-free and different from `.`, the `..`
components form a leading block, and an absolute path retains no `..` at all.
These facts drive the idempotence and fixpoint results below. -/

/-- A component that `normpath` can retain: nonempty, not `.`, slash-free. -/
def goodPiece (p : List Char) : Prop := p ≠ [] ∧ p ≠ dotPiece ∧ '/' ∉ p

/-- Invariant of the component list built by the `normpath` fold. -/
def goodList (hasRoot : Bool) (L : List (List Char)) : Prop :=
  (∀ p ∈ L, goodPiece p) ∧
  (∃ m R, L = List.replicate m ddPiece ++ R ∧ ddPiece ∉ R) ∧
  (hasRoot = true → ddPiece ∉ L)

theorem goodList_nil (r : Bool) : goodList r [] :=
  ⟨by simp, ⟨0, [], by simp, by simp⟩, by simp⟩

theorem leading_of_mem_left {A B R : List (List Char)} {m : Nat}
    (hEq : A ++ ddPiece :: B = List.replicate m ddPiece ++ R) (hR : ddPiece ∉ R) :
    ∀ x ∈ A, x = ddPiece := by
  intro x hx
  obtain ⟨i, hi, hxi⟩ := List.getElem_of_mem hx
  rcases Nat.lt_or_ge A.length m with hm | hm
  · have h1 : (A ++ ddPiece :: B)[i]? = some x := by
      rw [List.getElem?_append_left hi, List.getElem?_eq_getElem hi, hxi]
    rw [hEq] at h1
    have h2 : (List.replicate m ddPiece ++ R)[i]? = some ddPiece := by
      rw [List.getElem?_append_left (by simpa using Nat.lt_trans hi hm)]
      exact List.getElem?_replicate_of_lt (Nat.lt_trans hi hm)
    rw [h1] at h2
    exact Option.some.inj h2
  · exfalso
    have h1 : (A ++ ddPiece :: B)[A.length]? = some ddPiece := by
      rw [List.getElem?_append_right (Nat.le_refl _)]
      simp
    rw [hEq, List.getElem?_append_right (by simpa using hm)] at h1
    exact hR (List.getElem?_mem h1)

theorem getLast?_mem_of_eq_some {α : Type _} {l : List α} {a : α}
    (h : l.getLast? = some a) : a ∈ l := by
  have hdec : l.dropLast ++ [a] = l :=
    List.dropLast_append_getLast? a (Option.mem_def.mpr h)
  rw [← hdec]; simp

theorem normStep_good (r : Bool) (acc : List (List Char)) (c : List Char)
    (hc : '/' ∉ c) (h : goodList r acc) : goodList r (normStep r acc c) := by
  obtain ⟨hp, ⟨m, R, hEq, hR⟩, hdd⟩ := h
  unfold normStep
  by_cases h1 : c = [] ∨ c = dotPiece
  · rw [if_pos h1]; exact ⟨hp, ⟨m, R, hEq, hR⟩, hdd⟩
  rw [if_neg h1]
  push_neg at h1
  obtain ⟨hc1, hc2⟩ := h1
  by_cases h2 : c ≠ ddPiece ∨ (r = false ∧ acc = []) ∨ (acc ≠ [] ∧ acc.getLast? = some ddPiece)
  · rw [if_pos h2]
    have hmem : ∀ p ∈ acc ++ [c], goodPiece p := by
      intro p hp'
      rcases List.mem_append.mp hp' with h | h
      · exact hp p h
      · simp only [List.mem_singleton] at h; subst h; exact ⟨hc1, hc2, hc⟩
    by_cases hcdd : c = ddPiece
    · subst hcdd
      -- appending a second (or first, on a relative path) `..`
      have hrfalse : r = false := by
        cases hr : r with
        | false => rfl
        | true =>
          exfalso
          rcases h2 with h | h | h
          · exact h rfl
          · exact absurd h.1 (by simp [hr])
          · exact (hdd hr) (getLast?_mem_of_eq_some h.2)
      have hacc : acc = List.replicate m ddPiece ∧ R = [] := by
        rcases h2 with h | h | h
        · exact absurd rfl h
        · rw [h.2] at hEq ⊢
          rcases List.append_eq_nil.mp hEq.symm with ⟨hm0, hR0⟩
          exact ⟨hm0.symm, hR0⟩
        · obtain ⟨hne, hlast⟩ := h
          have hRnil : R = [] := by
            by_contra hRne
            have hlasts : acc.getLast? = R.getLast? := by
              rw [hEq]; exact List.getLast?_append_of_ne_nil _ hRne
            rw [hlast] at hlasts
            have : ddPiece ∈ R := getLast?_mem_of_eq_some hlasts.symm
            exact hR this
          rw [hRnil, List.append_nil] at hEq
          exact ⟨hEq, hRnil⟩
      refine ⟨hmem, ⟨m + 1, [], ?_, by simp⟩, by simp [hrfalse]⟩
      rw [hacc.1, List.append_nil, ← List.replicate_succ' m ddPiece]
    · refine ⟨hmem, ⟨m, R ++ [c], by rw [hEq, List.append_assoc], ?_⟩, ?_⟩
      · intro hin
        rcases List.mem_append.mp hin with h | h
        · exact hR h
        · simp only [List.mem_singleton] at h; exact hcdd h.symm
      · intro hr hin
        rcases List.mem_append.mp hin with h | h
        · exact hdd hr h
        · simp only [List.mem_singleton] at h; exact hcdd h.symm
  · rw [if_neg h2]
    by_cases h3 : acc ≠ []
    · rw [if_pos h3]
      have hsub : ∀ p ∈ acc.dropLast, p ∈ acc := fun p hp' => List.dropLast_subset _ hp'
      refine ⟨fun p hp' => hp p (hsub p hp'), ?_, fun hr hin => hdd hr (hsub _ hin)⟩
      rcases Classical.em (R = []) with hRnil | hRne
      · subst hRnil
        rw [List.append_nil] at hEq
        cases m with
        | zero => exact absurd (by simpa using hEq) h3
        | succ m' =>
          refine ⟨m', [], ?_, by simp⟩
          rw [hEq, List.replicate_succ' m' ddPiece, List.dropLast_concat, List.append_nil]
      · refine ⟨m, R.dropLast, ?_, fun hin => hR (List.dropLast_subset _ hin)⟩
        rw [hEq, List.dropLast_append_of_ne_nil _ hRne]
    · rw [if_neg h3]
      exact ⟨hp, ⟨m, R, hEq, hR⟩, hdd⟩

theorem foldl_normStep_good (r : Bool) (comps : List (List Char))
    (hcomps : ∀ c ∈ comps, '/' ∉ c) (acc : List (List Char)) (hacc : goodList r acc) :
    goodList r (comps.foldl (normStep r) acc) := by
  induction comps generalizing acc with
  | nil => exact hacc
  | cons c cs ih =>
    simp only [List.foldl_cons]
    exact ih (fun c' hc' => hcomps c' (List.mem_cons_of_mem _ hc')) _
      (normStep_good r acc c (hcomps c (List.mem_cons_self _ _)) hacc)

/-- On an already-normalized component list the `normpath` fold is a no-op. -/
theorem foldl_normStep_id (r : Bool) :
    ∀ (L acc : List (List Char)), goodList r (acc ++ L) →
      L.foldl (normStep r) acc = acc ++ L := by
  intro L
  induction L with
  | nil => intro acc _; simp
  | cons c L' ih =>
    intro acc hgood
    obtain ⟨hp, ⟨m, R, hEq, hR⟩, hdd⟩ := hgood
    have hcg : goodPiece c := hp c (List.mem_append_right _ (List.mem_cons_self _ _))
    have hstep : normStep r acc c = acc ++ [c] := by
      unfold normStep
      rw [if_neg (by push_neg; exact ⟨hcg.1, hcg.2.1⟩)]
      rw [if_pos ?_]
      by_cases hcdd : c = ddPiece
      · subst hcdd
        have hrfalse : r = false := by
          cases hr : r with
          | false => rfl
          | true =>
            exact absurd (List.mem_append_right _ (List.mem_cons_self _ _)) (hdd hr)
        have haccdd : ∀ x ∈ acc, x = ddPiece := leading_of_mem_left hEq hR
        rcases Classical.em (acc = []) with hnil | hne
        · exact Or.inr (Or.inl ⟨hrfalse, hnil⟩)
        · refine Or.inr (Or.inr ⟨hne, ?_⟩)
          rw [List.getLast?_eq_getLast_of_ne_nil hne]
          exact congrArg some (haccdd _ (List.getLast_mem hne))
      · exact Or.inl hcdd
    simp only [List.foldl_cons, hstep]
    have : (acc ++ [c]) ++ L' = acc ++ c :: L' := by simp
    rw [ih (acc ++ [c]) (by rw [this]; exact ⟨hp, ⟨m, R, hEq, hR⟩, hdd⟩), this]

theorem initialSlashes_le_two (cs : List Char) : initialSlashes cs ≤ 2 := by
  unfold initialSlashes
  split
  · split
    · omega
    · omega
  · omega

theorem initialSlashes_pos_iff (cs : List Char) :
    initialSlashes cs ≠ 0 ↔ startsWithD ['/'] cs = true := by
  unfold initialSlashes
  split
  · next h => simp only [h, iff_true]; split <;> omega
  · next h => simp only [ne_eq, not_true_eq_false, iff_false]; simpa using h

theorem splitChar_replicate_append (k : Nat) (t : List Char) :
    splitChar '/' (List.replicate k '/' ++ t) =
      List.replicate k ([] : List Char) ++ splitChar '/' t := by
  induction k with
  | zero => simp
  | succ n ih =>
    rw [List.replicate_succ, List.cons_append, splitChar_cons_sep, ih,
      List.replicate_succ, List.cons_append]

theorem splitChar_joinSep (L : List (List Char)) (hL : L ≠ [])
    (hp : ∀ p ∈ L, '/' ∉ p) : splitChar '/' (joinSep '/' L) = L := by
  induction L with
  | nil => exact absurd rfl hL
  | cons p L' ih =>
    cases L' with
    | nil => simp [splitChar_of_not_mem '/' p (hp p (by simp))]
    | cons q t =>
      rw [joinSep_cons₂, splitChar_append, splitChar_of_not_mem '/' p (hp p (by simp)),
        ih (by simp) (fun x hx => hp x (List.mem_cons_of_mem _ hx))]
      rfl

theorem foldl_normStep_skip (r : Bool) (k : Nat) (rest : List (List Char))
    (acc : List (List Char)) :
    (List.replicate k ([] : List Char) ++ rest).foldl (normStep r) acc =
      rest.foldl (normStep r) acc := by
  induction k generalizing acc with
  | zero => simp
  | succ n ih =>
    rw [List.replicate_succ, List.cons_append, List.foldl_cons,
      show normStep r acc [] = acc from by simp [normStep]]
    exact ih acc

theorem joinSep_cons_exists (p : List Char) (L' : List (List Char)) :
    ∃ t, joinSep '/' (p :: L') = p ++ t := by
  cases L' with
  | nil => exact ⟨[], by simp⟩
  | cons q t' => exact ⟨'/' :: joinSep '/' (q :: t'), rfl⟩

/-- A string already in normalized shape is a fixpoint of `normpathData`. -/
theorem normpathData_canon (k : Nat) (L : List (List Char)) (hk : k ≤ 2)
    (hgood : goodList (decide (k ≠ 0)) L) (hLk : L = [] → k ≠ 0) :
    normpathData (List.replicate k '/' ++ joinSep '/' L) =
      List.replicate k '/' ++ joinSep '/' L := by
  rcases Classical.em (L = []) with hLnil | hLne
  · subst hLnil
    have hk0 := hLk rfl
    interval_cases k
    · exact absurd rfl hk0
    · decide
    · decide
  · obtain ⟨p, L', rfl⟩ : ∃ p L', L = p :: L' := by
      cases L with
      | nil => exact absurd rfl hLne
      | cons p L' => exact ⟨p, L', rfl⟩
    obtain ⟨hp, hlead, habs⟩ := hgood
    have hpg : goodPiece p := hp p (List.mem_cons_self _ _)
    obtain ⟨c, p', rfl⟩ : ∃ c pr, p = c :: pr := by
      cases p with
      | nil => exact absurd rfl hpg.1
      | cons c pr => exact ⟨c, pr, rfl⟩
    have hcslash : c ≠ '/' := fun h => hpg.2.2 (h ▸ List.mem_cons_self _ _)
    obtain ⟨t, hjoin⟩ := joinSep_cons_exists (c :: p') L'
    set s := List.replicate k '/' ++ joinSep '/' ((c :: p') :: L') with hs
    have hsne : s ≠ [] := by rw [hs, hjoin]; cases k <;> simp
    have hinit : initialSlashes s = k := by
      rw [hs, hjoin]
      interval_cases k
      · show initialSlashes (c :: (p' ++ t)) = 0
        simp [initialSlashes, startsWithD, Ne.symm hcslash]
      · show initialSlashes ('/' :: (c :: (p' ++ t))) = 1
        simp [initialSlashes, startsWithD, Ne.symm hcslash]
      · show initialSlashes ('/' :: '/' :: (c :: (p' ++ t))) = 2
        simp [initialSlashes, startsWithD, Ne.symm hcslash]
    have hsplit : splitChar '/' s = List.replicate k [] ++ ((c :: p') :: L') := by
      rw [hs, splitChar_replicate_append,
        splitChar_joinSep _ (by simp) (fun x hx => (hp x hx).2.2)]
    have hfold : (splitChar '/' s).foldl (normStep (decide (k ≠ 0))) [] =
        (c :: p') :: L' := by
      rw [hsplit, foldl_normStep_skip]
      have := foldl_normStep_id (decide (k ≠ 0)) ((c :: p') :: L') []
        (by rw [List.nil_append]; exact ⟨hp, hlead, habs⟩)
      rw [List.nil_append] at this
      exact this
    have hpathne : List.replicate k '/' ++ joinSep '/' ((c :: p') :: L') ≠ [] := by
      rw [hjoin]; cases k <;> simp
    unfold normpathData
    rw [if_neg hsne]
    simp only [hinit, hfold, hs]
    rw [if_neg hpathne]

/-- Shape of the output of `normpathData` on a nonempty input: either `.` or a
canonical `slashes ++ components` form. -/
theorem normpathData_shape (cs : List Char) (h : cs ≠ []) :
    normpathData cs = dotPiece ∨
    ∃ L, goodList (decide (initialSlashes cs ≠ 0)) L ∧
      normpathData cs = List.replicate (initialSlashes cs) '/' ++ joinSep '/' L ∧
      (L = [] → initialSlashes cs ≠ 0) := by
  have hgood : goodList (decide (initialSlashes cs ≠ 0))
      ((splitChar '/' cs).foldl (normStep (decide (initialSlashes cs ≠ 0))) []) :=
    foldl_normStep_good _ _ (splitChar_pieces '/' cs) [] (goodList_nil _)
  unfold normpathData
  rw [if_neg h]
  by_cases hpath : List.replicate (initialSlashes cs) '/' ++
      joinSep '/' ((splitChar '/' cs).foldl (normStep (decide (initialSlashes cs ≠ 0))) []) = []
  · left
    simp only []
    rw [if_pos hpath]
  · right
    refine ⟨_, hgood, ?_, ?_⟩
    · simp only []
      rw [if_neg hpath]
    · intro hL hk0
      apply hpath
      rw [hL, hk0]
      rfl

theorem normpathData_ne_nil (cs : List Char) : normpathData cs ≠ [] := by
  rcases Classical.em (cs = []) with hnil | hne
  · subst hnil; decide
  · rcases normpathData_shape cs hne with hdot | ⟨L, hgood, heq, hLk⟩
    · rw [hdot]; decide
    · rw [heq]
      rcases Classical.em (L = []) with hL | hL
      · intro hc
        rw [hL] at hc
        simp at hc
        exact (hLk hL) hc
      · obtain ⟨p, L', rfl⟩ : ∃ p L', L = p :: L' := by
          cases L with
          | nil => exact absurd rfl hL
          | cons p L' => exact ⟨p, L', rfl⟩
        obtain ⟨t, hj⟩ := joinSep_cons_exists p L'
        have hpne : p ≠ [] := (hgood.1 p (List.mem_cons_self _ _)).1
        intro hc
        rw [hj] at hc
        cases hk : initialSlashes cs with
        | zero => rw [hk] at hc; cases p <;> simp_all
        | succ n => rw [hk] at hc; simp_all [List.replicate_succ]

theorem normpathData_idem (cs : List Char) :
    normpathData (normpathData cs) = normpathData cs := by
  rcases Classical.em (cs = []) with hnil | hne
  · subst hnil; decide
  · rcases normpathData_shape cs hne with hdot | ⟨L, hgood, heq, hLk⟩
    · rw [hdot]; decide
    · rw [heq]
      exact normpathData_canon (initialSlashes cs) L (initialSlashes_le_two cs) hgood hLk

theorem flexNew_of_ne (s : String) (h : s ≠ "") :
    flexNew s = ⟨normpathData s.data⟩ := by
  unfold flexNew normpath
  rw [if_neg h]

theorem flexNew_ne_empty (s : String) (h : s ≠ "") : flexNew s ≠ "" := by
  rw [flexNew_of_ne s h]
  intro hc
  have hdata : normpathData s.data = [] := congrArg String.data hc
  exact normpathData_ne_nil _ hdata

/-! ## Relative paths: `commonpath`, `abspath`, `relpath`, `FlexPath.relative_to`

`FlexPath.relative_to` normalizes both operands, rejects mixed anchors, checks
the `os.path.commonpath` of the two against the base, and finally delegates to
`os.path.relpath`.  CPython's `relpath` calls `abspath`, which resolves a
relative argument against the process working directory (`os.getcwd()`); the
working directory is therefore an explicit `cwd` parameter of the embedding. -/

/-- Longest common prefix of two lists.  CPython `genericpath.commonprefix`
applied to exactly two sequences (`min`/`max` of two elements are the two
elements themselves, and the scan of `min` against `max` stops at their first
difference, which yields precisely the longest common prefix). -/
def commonPrefixList {α : Type _} [DecidableEq α] : List α → List α → List α
  | x :: xs, y :: ys => if x = y then x :: commonPrefixList xs ys else []
  | _, _ => []

/-- CPython `posixpath.commonpath([sp, bp])` for two operands with equal
anchors (the caller, `relative_to`, has already rejected mixed anchors, which
is the only `ValueError` this routine can raise for two nonempty POSIX paths):
split both on `/`, drop empty and `.` components, take the longest common
component prefix, and rejoin, rooting the result when the inputs are
absolute. -/
def commonPath2 (sp bp : List Char) : List Char :=
  let isabs := startsWithD ['/'] sp
  let spComps := (splitChar '/' sp).filter (fun c => c ≠ [] ∧ c ≠ dotPiece)
  let bpComps := (splitChar '/' bp).filter (fun c => c ≠ [] ∧ c ≠ dotPiece)
  let common := commonPrefixList spComps bpComps
  (if isabs then ['/'] else []) ++ joinSep '/' common

/-- CPython `posixpath.abspath` with the working directory `cwd` passed
explicitly: a relative path is joined onto `cwd` first, then normalized. -/
def abspathD (cwd p : List Char) : List Char :=
  if startsWithD ['/'] p then normpathData p else normpathData (pjoin2 cwd p)

/-- CPython `posixpath.relpath(p, start)` with the working directory passed
explicitly: both operands are taken through `abspath`, split on `/` dropping
empty components, and the result is `..` for every component of `start` past
the common prefix followed by the remaining components of `p` (`.` when that
list is empty). -/
def relpathD (cwd p start : List Char) : List Char :=
  let startList := (splitChar '/' (abspathD cwd start)).filter (fun c => c ≠ [])
  let pathList := (splitChar '/' (abspathD cwd p)).filter (fun c => c ≠ [])
  let i := (commonPrefixList startList pathList).length
  let relList := List.replicate (startList.length - i) ddPiece ++ pathList.drop i
  match relList with
  | [] => dotPiece
  | h :: t => pjoinList h t

/-- Method `FlexPath.relative_to` with a single base operand (the claims under
review pass exactly one base; `os.path.join` of a single path is that path).
Both operands are normalized; mixed anchors fail with `IncompatibleAnchors`; a
common path different from the base fails with `NotASubpath`; otherwise the
result of `os.path.relpath` is wrapped as a new `FlexPath`.  The working
directory consulted by `os.path.relpath`/`abspath` is the explicit `cwd`. -/
def relativeTo (cwd : String) (s : String) (base : String) : Except FlexErr String :=
  let sp := normpathData s.data
  let bp := normpathData base.data
  if startsWithD ['/'] sp ≠ startsWithD ['/'] bp then .error .incompatibleAnchors
  else
    let common := commonPath2 sp bp
    if common ≠ bp then .error .notASubpath
    else
      let rel := relpathD cwd.data sp bp
      .ok (flexNew (if rel = dotPiece then "." else ⟨rel⟩))

/-! ## The normalization algorithm as worded by the specification (claim C1)

`specNormalize` renders the claim's algorithm verbatim: split on `/`, drop
empty and `.` segments, resolve `..` by popping, reassemble with `/`
separators prefixed by `/` iff the input was absolute, with the empty input
exempt.  `specNormalizeAmended` is the same algorithm with the two corrections
the code forces: a nonempty input whose segments all vanish yields the marker
`.` rather than the empty string, and an input with exactly two leading
slashes keeps the double-slash root. -/

/-- Resolution of `..` segments as worded by the specification: pop the
previous retained segment unless it is itself `..`; with nothing to pop, keep
the `..` literally when the path is relative and drop it when it is
absolute. -/
def claimResolve (isAbsolute : Bool) (acc : List (List Char)) :
    List (List Char) → List (List Char)
  | [] => acc
  | seg :: rest =>
    if seg = ddPiece then
      if acc ≠ [] ∧ acc.getLast? ≠ some ddPiece then claimResolve isAbsolute acc.dropLast rest
      else if acc ≠ [] then claimResolve isAbsolute (acc ++ [seg]) rest
      else if isAbsolute then claimResolve isAbsolute acc rest
      else claimResolve isAbsolute (acc ++ [seg]) rest
    else claimResolve isAbsolute (acc ++ [seg]) rest

/-- The normalization algorithm exactly as the claim states it. -/
def specNormalize (s : String) : String :=
  if s = "" then ""
  else
    let isAbsolute := startsWithD ['/'] s.data
    let segs := (splitChar '/' s.data).filter (fun c => c ≠ [] ∧ c ≠ dotPiece)
    let kept := claimResolve isAbsolute [] segs
    ⟨(if isAbsolute then ['/'] else []) ++ joinSep '/' kept⟩

/-- The claim's algorithm amended by what the code forces: an all-dropped
nonempty input yields `.`, and exactly two leading slashes are kept. -/
def specNormalizeAmended (s : String) : String :=
  if s = "" then ""
  else
    let isAbsolute := startsWithD ['/'] s.data
    let segs := (splitChar '/' s.data).filter (fun c => c ≠ [] ∧ c ≠ dotPiece)
    let kept := claimResolve isAbsolute [] segs
    let pre : List Char :=
      if startsWithD ['/', '/'] s.data ∧ ¬ startsWithD ['/', '/', '/'] s.data then ['/', '/']
      else if isAbsolute then ['/'] else []
    let out := pre ++ joinSep '/' kept
    if out = [] then "." else ⟨out⟩

/-! ### Equivalence of the specification's algorithm with `normpath` -/

theorem foldl_normStep_eq_filter (r : Bool) (comps : List (List Char)) (acc : List (List Char)) :
    comps.foldl (normStep r) acc =
      (comps.filter (fun c => decide (c ≠ [] ∧ c ≠ dotPiece))).foldl (normStep r) acc := by
  induction comps generalizing acc with
  | nil => rfl
  | cons c cs ih =>
    by_cases hc : c ≠ [] ∧ c ≠ dotPiece
    · rw [List.foldl_cons, List.filter_cons_of_pos (by simpa using hc), List.foldl_cons, ih]
    · have hcd : c = [] ∨ c = dotPiece := by
        rcases Classical.em (c = []) with h | h
        · exact Or.inl h
        · right
          by_contra h2
          exact hc ⟨h, h2⟩
      rw [List.foldl_cons, List.filter_cons_of_neg (by simpa using hc),
        show normStep r acc c = acc from by unfold normStep; rw [if_pos hcd]]
      exact ih acc

theorem claimResolve_cons (r : Bool) (acc : List (List Char)) (c : List Char)
    (rest : List (List Char)) :
    claimResolve r acc (c :: rest) =
      if c = ddPiece then
        if acc ≠ [] ∧ acc.getLast? ≠ some ddPiece then claimResolve r acc.dropLast rest
        else if acc ≠ [] then claimResolve r (acc ++ [c]) rest
        else if r then claimResolve r acc rest
        else claimResolve r (acc ++ [c]) rest
      else claimResolve r (acc ++ [c]) rest := rfl

theorem claimResolve_eq_foldl (r : Bool) (segs : List (List Char)) :
    ∀ acc, (∀ c ∈ segs, c ≠ [] ∧ c ≠ dotPiece) →
      claimResolve r acc segs = segs.foldl (normStep r) acc := by
  induction segs with
  | nil => intro acc _; rfl
  | cons c rest ih =>
    intro acc hgood
    have hrest := fun x hx => hgood x (List.mem_cons_of_mem _ hx)
    rw [List.foldl_cons, claimResolve_cons]
    by_cases hdd : c = ddPiece
    · subst hdd
      rw [if_pos rfl]
      by_cases h1 : acc ≠ [] ∧ acc.getLast? ≠ some ddPiece
      · have hns : normStep r acc ddPiece = acc.dropLast := by
          unfold normStep
          rw [if_neg (by decide), if_neg ?_, if_pos h1.1]
          rintro (h | h | h)
          · exact h rfl
          · exact h1.1 h.2
          · exact h1.2 h.2
        rw [if_pos h1, hns]
        exact ih _ hrest
      · push_neg at h1
        rw [if_neg (by push_neg; exact h1)]
        by_cases h2 : acc = []
        · subst h2
          rw [if_neg (by simp)]
          cases hr : r with
          | true =>
            have hns : normStep true [] ddPiece = [] := by decide
            rw [if_pos rfl, hns]
            rw [hr] at ih
            exact ih _ hrest
          | false =>
            have hns : normStep false [] ddPiece = [ddPiece] := by decide
            rw [if_neg (by decide), hns]
            rw [hr] at ih
            have := ih [ddPiece] hrest
            simpa using this
        · have hlast : acc.getLast? = some ddPiece := h1 h2
          have hns : normStep r acc ddPiece = acc ++ [ddPiece] := by
            unfold normStep
            rw [if_neg (by decide), if_pos (Or.inr (Or.inr ⟨h2, hlast⟩))]
          rw [if_pos h2, hns]
          exact ih _ hrest
    · have hc := hgood c (List.mem_cons_self _ _)
      have hns : normStep r acc c = acc ++ [c] := by
        unfold normStep
        rw [if_neg (by push_neg; exact hc), if_pos (Or.inl hdd)]
      rw [if_neg hdd, hns]
      exact ih _ hrest

theorem startsWith_of_two (cs : List Char) (h : startsWithD ['/', '/'] cs = true) :
    startsWithD ['/'] cs = true := by
  cases cs with
  | nil => simp at h
  | cons x xs =>
    cases xs with
    | nil => simp at h
    | cons y ys =>
      simp only [startsWithD_cons_cons, Bool.and_eq_true, decide_eq_true_eq] at h ⊢
      exact ⟨h.1, rfl⟩

theorem decide_initialSlashes (cs : List Char) :
    (decide (initialSlashes cs ≠ 0)) = startsWithD ['/'] cs := by
  by_cases hsw : startsWithD ['/'] cs = true
  · simp [hsw, (initialSlashes_pos_iff cs).mpr hsw]
  · have h0 : initialSlashes cs = 0 := by
      by_contra hn
      exact hsw ((initialSlashes_pos_iff cs).mp hn)
    have hfalse : startsWithD ['/'] cs = false := by
      cases hb : startsWithD ['/'] cs
      · rfl
      · exact absurd hb hsw
    rw [h0, hfalse]
    decide

theorem replicate_initialSlashes (cs : List Char) :
    List.replicate (initialSlashes cs) '/' =
      (if startsWithD ['/', '/'] cs ∧ ¬ startsWithD ['/', '/', '/'] cs then ['/', '/']
       else if startsWithD ['/'] cs then ['/'] else ([] : List Char)) := by
  unfold initialSlashes
  by_cases h1 : startsWithD ['/'] cs = true
  · rw [if_pos h1]
    by_cases h2 : startsWithD ['/', '/'] cs ∧ ¬ startsWithD ['/', '/', '/'] cs
    · rw [if_pos h2, if_pos h2]; rfl
    · rw [if_neg h2, if_neg h2, if_pos h1]; rfl
  · rw [if_neg h1, if_neg ?_, if_neg h1]
    · rfl
    · intro h2
      exact h1 (startsWith_of_two cs h2.1)

theorem string_eq_of_data (s t : String) (h : s.data = t.data) : s = t := by
  cases s; cases t; exact congrArg String.mk h

theorem data_ne_nil_of_ne_empty (s : String) (h : s ≠ "") : s.data ≠ [] :=
  fun hc => h (string_eq_of_data s "" hc)

/-- Fully worded form of `normpathData` on a nonempty input, matching the
amended claim-side algorithm. -/
theorem normpathData_spec (cs : List Char) (hcs : cs ≠ []) :
    normpathData cs =
      (let pre : List Char :=
        if startsWithD ['/', '/'] cs ∧ ¬ startsWithD ['/', '/', '/'] cs then ['/', '/']
        else if startsWithD ['/'] cs then ['/'] else []
       let kept := claimResolve (startsWithD ['/'] cs) []
         ((splitChar '/' cs).filter (fun c => c ≠ [] ∧ c ≠ dotPiece))
       if pre ++ joinSep '/' kept = [] then dotPiece else pre ++ joinSep '/' kept) := by
  unfold normpathData
  rw [if_neg hcs]
  have hfold : (splitChar '/' cs).foldl (normStep (decide (initialSlashes cs ≠ 0))) [] =
      claimResolve (startsWithD ['/'] cs) []
        ((splitChar '/' cs).filter (fun c => decide (c ≠ [] ∧ c ≠ dotPiece))) := by
    rw [decide_initialSlashes, foldl_normStep_eq_filter]
    exact (claimResolve_eq_foldl _ _ [] (fun c hc => by
      simp only [List.mem_filter, decide_eq_true_eq] at hc
      exact hc.2)).symm
  simp only [hfold, replicate_initialSlashes]

/-- Pushing the `String` constructor through a conditional whose then-branch
is the `.` marker. -/
theorem mk_ite_dot (C : Prop) [Decidable C] (A : List Char) :
    (⟨if C then dotPiece else A⟩ : String) = if C then "." else ⟨A⟩ := by
  split <;> rfl

/-- C1 (amended): for every input string, construction produces exactly what
the specification's algorithm produces once that algorithm is extended by the
two rules the code implements on top of it: a nonempty input all of whose
segments are dropped yields the relative marker `.` (not the empty string),
and an input with exactly two leading slashes keeps the double-slash root. -/
theorem c1_normalization_amended (s : String) : flexNew s = specNormalizeAmended s := by
  rcases Classical.em (s = "") with h | h
  · subst h; rfl
  · rw [flexNew_of_ne s h]
    unfold specNormalizeAmended
    rw [if_neg h, normpathData_spec s.data (data_ne_nil_of_ne_empty s h)]
    exact mk_ite_dot _ _

/-- C1 (counterexample): the claim's algorithm as stated maps the input `.` to
the empty string, while construction (through `os.path.normpath`) yields `.`,
so construction does not implement the claim's algorithm verbatim. -/
theorem c1_normalization_counterexample :
    flexNew "." = "." ∧ specNormalize "." = "" ∧ flexNew "." ≠ specNormalize "." :=
  ⟨by decide, by decide, by decide⟩

/-- C8: normalization is idempotent: re-wrapping the raw text of a constructed
path value reproduces the same value, for every input string. -/
theorem c8_normalization_idempotent (x : String) :
    flexNew (flexNew x) = flexNew x := by
  rcases Classical.em (x = "") with h | h
  · subst h; rfl
  · have h2 := flexNew_ne_empty x h
    rw [flexNew_of_ne _ h2, flexNew_of_ne _ h]
    show (⟨normpathData (normpathData x.data)⟩ : String) = _
    exact congrArg String.mk (normpathData_idem x.data)

/-- C2: `relative_to` is not the pure function of the two operands that the
claim (and the specification's determinism requirements) describe: through
`os.path.relpath`/`os.path.abspath` it consults the process working directory,
and for the receiver `../../b/x` with base `..` it returns three different
results under three different working directories, only one of which is the
remaining-suffix answer `../b/x` required by the claim. -/
theorem c2_relative_to_cwd_dependent :
    relativeTo "/a/b" "../../b/x" ".." = Except.ok "../b/x" ∧
    relativeTo "/a/b/c" "../../b/x" ".." = Except.ok "x" ∧
    relativeTo "/" "../../b/x" ".." = Except.ok "b/x" ∧
    ("x" : String) ≠ "../b/x" :=
  ⟨rfl, rfl, rfl, by decide⟩

/-! ### The name / suffix / stem family (claims C3, C4, C10) -/

theorem string_data_append (s t : String) : (s ++ t).data = s.data ++ t.data := by
  cases s; cases t; rfl

theorem string_join_data_aux (L : List String) :
    ∀ acc : String, (L.foldl (fun r s => r ++ s) acc).data =
      acc.data ++ (L.map String.data).flatten := by
  induction L with
  | nil => intro acc; simp
  | cons s L' ih =>
    intro acc
    rw [List.foldl_cons, ih (acc ++ s), string_data_append]
    simp

theorem string_join_data (L : List String) :
    (String.join L).data = (L.map String.data).flatten := by
  have := string_join_data_aux L ""
  simpa [String.join] using this

theorem join_map_cons_dot (L : List (List Char)) (hL : L ≠ []) :
    (L.map (fun p => '.' :: p)).flatten = '.' :: joinSep '.' L := by
  induction L with
  | nil => exact absurd rfl hL
  | cons p L' ih =>
    cases L' with
    | nil => simp
    | cons q t =>
      rw [List.map_cons, List.flatten_cons, ih (by simp), joinSep_cons₂]
      rfl

/-- The dot-groups of a string: prepending a dot to every piece of the split
after the first and concatenating gives the string from its first dot on. -/
theorem join_suffixes_data (cs : List Char) :
    ((splitChar '.' cs).tail.map (fun p => '.' :: p)).flatten =
      cs.dropWhile (fun c => c ≠ '.') := by
  induction cs with
  | nil => rfl
  | cons x xs ih =>
    by_cases hx : x = '.'
    · subst hx
      rw [splitChar_cons_sep]
      show ((splitChar '.' xs).map (fun p => '.' :: p)).flatten = _
      rw [join_map_cons_dot _ (splitChar_ne_nil '.' xs), joinSep_splitChar]
      simp [List.dropWhile_cons]
    · obtain ⟨h', t', hht, heq⟩ := splitChar_cons_ne '.' x xs hx
      rw [heq]
      show (t'.map (fun p => '.' :: p)).flatten = _
      rw [hht] at ih
      simp only [List.tail_cons] at ih
      rw [ih]
      simp [List.dropWhile_cons, hx]

theorem suffix_of_rfind (s : String) (a b : List Char)
    (hn0 : ¬(name s = "" ∨ name s = "/"))
    (hrf : rfindSplit '.' (name s).data = some (a, b)) :
    suffix s = if a = [] then "" else ⟨'.' :: b⟩ := by
  unfold suffix
  rw [if_neg hn0, hrf]

theorem suffix_of_rfind_none (s : String)
    (hn0 : ¬(name s = "" ∨ name s = "/"))
    (hrf : rfindSplit '.' (name s).data = none) :
    suffix s = "" := by
  unfold suffix
  rw [if_neg hn0, hrf]

theorem stem_of_rfind (s : String) (a b : List Char)
    (hn0 : ¬(name s = "" ∨ name s = "/"))
    (hrf : rfindSplit '.' (name s).data = some (a, b)) :
    stem s = if a = [] then name s else ⟨a⟩ := by
  unfold stem
  rw [if_neg hn0, hrf]

/-- C3: the decomposition accessors agree: whenever the suffix is nonempty,
stem and suffix recombine to the name, and the concatenation of the suffixes
list is the trailing run of dot-groups of the name (the part of the name from
its first dot on). -/
theorem c3_stem_suffix_decomposition (s : String) (h : suffix s ≠ "") :
    stem s ++ suffix s = name s ∧
    String.join (suffixes s) = ⟨(name s).data.dropWhile (fun c => c ≠ '.')⟩ := by
  by_cases hn0 : name s = "" ∨ name s = "/"
  · exact absurd (by unfold suffix; rw [if_pos hn0]) h
  cases hrf : rfindSplit '.' (name s).data with
  | none => exact absurd (suffix_of_rfind_none s hn0 hrf) h
  | some ab =>
    obtain ⟨a, b⟩ := ab
    by_cases ha : a = []
    · exact absurd (by rw [suffix_of_rfind s a b hn0 hrf, if_pos ha]) h
    · obtain ⟨hcomp, hbdot⟩ := rfindSplit_eq_some '.' _ a b hrf
      constructor
      · rw [suffix_of_rfind s a b hn0 hrf, if_neg ha, stem_of_rfind s a b hn0 hrf, if_neg ha]
        apply string_eq_of_data
        show a ++ '.' :: b = (name s).data
        exact hcomp.symm
      · have hguard : ¬(name s = "" ∨
            (startsWithD ['.'] (name s).data ∧ (name s).data.count '.' = 1)) := by
          rintro (hno | ⟨hsw, hcount⟩)
          · exact hn0 (Or.inl hno)
          · obtain ⟨c0, a', rfl⟩ : ∃ c0 a', a = c0 :: a' := by
              cases a with
              | nil => exact absurd rfl ha
              | cons c0 a' => exact ⟨c0, a', rfl⟩
            rw [hcomp] at hsw
            simp only [List.cons_append, startsWithD_cons_cons, Bool.and_eq_true,
              decide_eq_true_eq] at hsw
            rw [hcomp, hsw.1.symm] at hcount
            simp [List.count_cons, List.count_append] at hcount
        have hlen : ¬((splitChar '.' (name s).data).length ≤ 1) := by
          rw [hcomp, splitChar_append]
          have h1 := splitChar_ne_nil '.' a
          have h2 := splitChar_ne_nil '.' b
          rw [List.length_append]
          cases hs1 : splitChar '.' a with
          | nil => exact absurd hs1 h1
          | cons p t =>
            cases hs2 : splitChar '.' b with
            | nil => exact absurd hs2 h2
            | cons q u => simp only [List.length_cons]; omega
        unfold suffixes
        rw [if_neg hguard, if_neg hlen]
        apply string_eq_of_data
        rw [string_join_data, List.map_map]
        show ((splitChar '.' (name s).data).tail.map (fun p => '.' :: p)).flatten = _
        rw [join_suffixes_data]

/-- Witness for C3 at the specification's multi-suffix example
`/home/user/archive.tar.gz`. -/
theorem c3_stem_suffix_decomposition_witness :
    suffix "/home/user/archive.tar.gz" ≠ "" ∧
    (stem "/home/user/archive.tar.gz" ++ suffix "/home/user/archive.tar.gz" =
        name "/home/user/archive.tar.gz" ∧
      String.join (suffixes "/home/user/archive.tar.gz") =
        ⟨(name "/home/user/archive.tar.gz").data.dropWhile (fun c => c ≠ '.')⟩) :=
  ⟨by decide, c3_stem_suffix_decomposition "/home/user/archive.tar.gz" (by decide)⟩

/-- C4: a dotfile name, a leading dot with no other dot, has no suffix: the
suffix is empty, the suffixes list is empty, and the stem is the whole name. -/
theorem c4_dotfile_has_no_suffix (s : String)
    (h1 : startsWithD ['.'] (name s).data = true)
    (h2 : (name s).data.count '.' = 1) :
    suffix s = "" ∧ suffixes s = [] ∧ stem s = name s := by
  obtain ⟨c, rest, hdata⟩ : ∃ c rest, (name s).data = c :: rest := by
    cases hd : (name s).data with
    | nil => rw [hd] at h1; simp at h1
    | cons c rest => exact ⟨c, rest, rfl⟩
  have hcdot : c = '.' := by
    rw [hdata] at h1
    simp only [startsWithD_cons_cons, startsWithD_nil, Bool.and_true,
      decide_eq_true_eq] at h1
    exact h1.symm
  subst hcdot
  have hrest : '.' ∉ rest := by
    rw [hdata] at h2
    have hcnt : rest.count '.' = 0 := by
      simp [List.count_cons] at h2
      omega
    exact List.count_eq_zero.mp hcnt
  have hn0 : ¬(name s = "" ∨ name s = "/") := by
    rintro (h | h)
    · rw [h] at hdata; exact absurd hdata (by simp)
    · rw [h] at hdata
      have : '/' = '.' := by simpa using congrArg (fun l => l.head?) hdata
      exact absurd this (by decide)
  have hrf : rfindSplit '.' (name s).data = some ([], rest) := by
    rw [hdata]
    simp [rfindSplit, rfindSplit_eq_none '.' rest hrest]
  refine ⟨?_, ?_, ?_⟩
  · rw [suffix_of_rfind s [] rest hn0 hrf, if_pos rfl]
  · unfold suffixes
    rw [if_pos (Or.inr ⟨h1, h2⟩)]
  · rw [stem_of_rfind s [] rest hn0 hrf, if_pos rfl]

/-- Witness for C4 at the dotfile `.bashrc`. -/
theorem c4_dotfile_has_no_suffix_witness :
    startsWithD ['.'] (name ".bashrc").data = true ∧
    (name ".bashrc").data.count '.' = 1 ∧
    (suffix ".bashrc" = "" ∧ suffixes ".bashrc" = [] ∧ stem ".bashrc" = name ".bashrc") :=
  ⟨by decide, by decide, c4_dotfile_has_no_suffix ".bashrc" (by decide) (by decide)⟩

/-- C10: a trailing dot counts as a suffix separator: when the name ends with a
dot and has at least one character before it, the suffix is exactly `.` and the
stem is the name without its trailing dot. -/
theorem c10_trailing_dot_is_suffix (s : String)
    (h1 : endsWithChar '.' (name s).data = true)
    (h2 : 2 ≤ (name s).data.length) :
    suffix s = "." ∧ stem s = ⟨(name s).data.dropLast⟩ := by
  have hlast : (name s).data.getLast? = some '.' := by
    unfold endsWithChar at h1
    cases hg : (name s).data.getLast? with
    | none => rw [hg] at h1; simp at h1
    | some d =>
      rw [hg] at h1
      simp only [decide_eq_true_eq] at h1
      rw [h1]
  have hdec : (name s).data.dropLast ++ ['.'] = (name s).data :=
    List.dropLast_append_getLast? '.' (Option.mem_def.mpr hlast)
  have hAne : (name s).data.dropLast ≠ [] := by
    intro hc
    rw [hc] at hdec
    rw [← hdec] at h2
    simp at h2
  have hrf : rfindSplit '.' (name s).data = some ((name s).data.dropLast, []) := by
    conv_lhs => rw [← hdec]
    exact rfindSplit_append '.' _ [] (by simp)
  have hn0 : ¬(name s = "" ∨ name s = "/") := by
    rintro (h | h)
    · rw [h] at h2; simp at h2
    · rw [h] at hlast
      exact absurd hlast (by decide)
  constructor
  · rw [suffix_of_rfind s _ [] hn0 hrf, if_neg hAne]
  · rw [stem_of_rfind s _ [] hn0 hrf, if_neg hAne]

/-- Witness for C10 at the name `archive.`. -/
theorem c10_trailing_dot_is_suffix_witness :
    endsWithChar '.' (name "archive.").data = true ∧
    2 ≤ (name "archive.").data.length ∧
    (suffix "archive." = "." ∧ stem "archive." = ⟨(name "archive.").data.dropLast⟩) :=
  ⟨by decide, by decide, c10_trailing_dot_is_suffix "archive." (by decide) (by decide)⟩

/-! ### Joining (claim C5) and fixed decompositions (claim C7) -/

/-- C5: `joinpath` concatenates with `os.path.join` semantics and the same
normalization as construction: a later absolute fragment discards the base and
all earlier fragments (the accumulation restarts at that fragment), the infix
combine operator is `joinpath` with exactly one fragment, its mirrored form is
a join of the fragment with the existing value, and with at least one fragment
the result is the construction-normalization of the `os.path.join` of all
parts. -/
theorem c5_join_semantics :
    (∀ (base : String) (pre : List String) (a : String) (post : List String),
        isAbs a = true →
        joinpath base (pre ++ a :: post) = flexNew ⟨pjoinList a.data (post.map String.data)⟩) ∧
    (∀ a b : String, truediv a b = joinpath a [b]) ∧
    (∀ p other : String, rtruediv p other = joinpath other [p]) ∧
    (∀ (base : String) (frags : List String), frags ≠ [] →
        joinpath base frags = flexNew ⟨pjoinList base.data (frags.map String.data)⟩) := by
  refine ⟨?_, ?_, ?_, ?_⟩
  · intro base pre a post hA
    have hne : pre ++ a :: post ≠ [] := by cases pre <;> simp
    unfold joinpath
    rw [if_neg hne]
    have habs : ∀ X : List Char, pjoin2 X a.data = a.data := by
      intro X
      unfold pjoin2
      rw [if_pos (show startsWithD ['/'] a.data = true from hA)]
    unfold pjoinList
    rw [List.map_append, List.map_cons, List.foldl_append, List.foldl_cons, habs]
  · intro a b; rfl
  · intro p other
    unfold rtruediv joinpath
    rw [if_neg (by simp)]
    rfl
  · intro base frags hne
    unfold joinpath
    rw [if_neg hne]

/-- Witness for C5: a later absolute fragment resets the accumulation. -/
theorem c5_join_semantics_witness :
    isAbs "/c" = true ∧
    joinpath "/x" (["y"] ++ "/c" :: ["d"]) =
      flexNew ⟨pjoinList "/c".data (["d"].map String.data)⟩ ∧
    joinpath "/x" ["y", "/c", "d"] = "/c/d" :=
  ⟨by decide, c5_join_semantics.1 "/x" ["y"] "/c" ["d"] (by decide), by decide⟩

/-- C7: the root and empty paths decompose as the fixed values the claim
lists, and the parent of any path containing no separator, hence relative with
no directory component, is the relative marker `.`. -/
theorem c7_fixed_decompositions :
    parent "/" = "/" ∧ name "/" = "/" ∧ splitParts "" = [] ∧ splitParts "/" = ["/"] ∧
    (∀ s : String, '/' ∉ s.data → parent s = ".") := by
  refine ⟨by decide, by decide, by decide, by decide, ?_⟩
  intro s h
  have hs : s ≠ "/" := by
    intro hc
    rw [hc] at h
    exact h (by decide)
  unfold parent
  rw [if_neg hs, rstripChar_of_not_mem '/' s.data h]
  by_cases hnil : s.data = []
  · rw [if_pos hnil]
    decide
  · rw [if_neg hnil]
    have hd : dirnameData s.data = [] := by
      unfold dirnameData
      rw [rfindSplit_eq_none '/' s.data h]
    rw [hd]
    decide

/-- Witness for C7 on the separator-free relative path `file`. -/
theorem c7_fixed_decompositions_witness :
    '/' ∉ ("file" : String).data ∧ parent "file" = "." :=
  ⟨by decide, c7_fixed_decompositions.2.2.2.2 "file" (by decide)⟩

/-! ### Decomposing a normalized path into parent prefix and final component
(claims C9 and C6) -/

@[simp] theorem string_data_mk (l : List Char) : (⟨l⟩ : String).data = l := rfl

theorem string_mk_data (s : String) : (⟨s.data⟩ : String) = s := by cases s; rfl

theorem flexNew_flexNew (s : String) : flexNew (flexNew s) = flexNew s := by
  rcases Classical.em (s = "") with h | h
  · subst h; rfl
  · have h2 := flexNew_ne_empty s h
    rw [flexNew_of_ne _ h2, flexNew_of_ne _ h]
    show (⟨normpathData (normpathData s.data)⟩ : String) = _
    exact congrArg String.mk (normpathData_idem s.data)

theorem joinSep_concat (sep : Char) (L : List (List Char)) (q : List Char) (h : L ≠ []) :
    joinSep sep (L ++ [q]) = joinSep sep L ++ sep :: q := by
  induction L with
  | nil => exact absurd rfl h
  | cons a rest ih =>
    cases rest with
    | nil => rfl
    | cons b rest' =>
      show joinSep sep (a :: ((b :: rest') ++ [q])) = _
      rw [joinSep_cons_of_ne_nil sep a _ (by simp), ih (by simp),
        joinSep_cons_of_ne_nil sep a (b :: rest') (by simp)]
      simp

theorem lastComponent_no_slash (q : List Char) (hq : q ≠ []) (hqs : '/' ∉ q) :
    lastComponent ⟨q⟩ = ⟨q⟩ := by
  have hne : (⟨q⟩ : String) ≠ "/" := by
    intro hc
    have : q = ['/'] := congrArg String.data hc
    rw [this] at hqs
    exact hqs (by simp)
  unfold lastComponent
  rw [if_neg hne]
  simp only [string_data_mk]
  rw [rstripChar_of_not_mem '/' q hqs, if_neg hq, rfindSplit_eq_none '/' q hqs]

theorem lastComponent_append_slash (preZ q : List Char) (hq : q ≠ []) (hqs : '/' ∉ q) :
    lastComponent ⟨preZ ++ '/' :: q⟩ = ⟨q⟩ := by
  have hne : (⟨preZ ++ '/' :: q⟩ : String) ≠ "/" := by
    intro hc
    have hdata : preZ ++ '/' :: q = ['/'] := congrArg String.data hc
    have hlen := congrArg List.length hdata
    have hqpos : 0 < q.length := List.length_pos.mpr hq
    simp [List.length_append] at hlen
    omega
  have hlast : (preZ ++ '/' :: q).getLast? ≠ some '/' := by
    rw [List.getLast?_append_cons]
    intro hc
    have hmem : '/' ∈ '/' :: q := getLast?_mem_of_eq_some hc
    rcases List.mem_cons.mp hmem with h | h
    · -- the slash itself can be getLast only when q = [] ... derive q = [] directly
      cases q with
      | nil => exact hq rfl
      | cons c q' =>
        rw [List.getLast?_cons_cons] at hc
        exact hqs (getLast?_mem_of_eq_some hc)
    · cases q with
      | nil => exact hq rfl
      | cons c q' =>
        rw [List.getLast?_cons_cons] at hc
        exact hqs (getLast?_mem_of_eq_some hc)
  unfold lastComponent
  rw [if_neg hne]
  simp only [string_data_mk]
  rw [rstripChar_of_getLast_ne '/' _ hlast, if_neg (by simp),
    rfindSplit_append '/' preZ q hqs]

/-- Every nonempty canonical component list gives a path of the shape
`prefix ++ final component`, whose `lastComponent` is that final component. -/
theorem name_canon (k : Nat) (L : List (List Char)) (hL : L ≠ [])
    (hgoodp : ∀ x ∈ L, goodPiece x) :
    ∃ q pre, L.getLast? = some q ∧
      List.replicate k '/' ++ joinSep '/' L = pre ++ q ∧
      lastComponent ⟨List.replicate k '/' ++ joinSep '/' L⟩ = ⟨q⟩ := by
  obtain ⟨q, hq⟩ : ∃ q, L.getLast? = some q :=
    ⟨L.getLast hL, List.getLast?_eq_getLast_of_ne_nil hL⟩
  have hLdec : L.dropLast ++ [q] = L :=
    List.dropLast_append_getLast? q (Option.mem_def.mpr hq)
  have hqgood : goodPiece q := hgoodp q (getLast?_mem_of_eq_some hq)
  rcases Classical.em (L.dropLast = []) with hL0 | hL0
  · have hLq : L = [q] := by rw [← hLdec, hL0]; rfl
    cases k with
    | zero =>
      refine ⟨q, [], hq, by rw [hLq]; simp, ?_⟩
      rw [hLq]
      show lastComponent ⟨q⟩ = ⟨q⟩
      exact lastComponent_no_slash q hqgood.1 hqgood.2.2
    | succ n =>
      refine ⟨q, List.replicate (n + 1) '/', hq, by rw [hLq]; simp, ?_⟩
      rw [hLq]
      have hshape : List.replicate (n + 1) '/' ++ joinSep '/' [q] =
          List.replicate n '/' ++ '/' :: q := by
        rw [List.replicate_succ' n '/']
        simp
      rw [hshape]
      exact lastComponent_append_slash _ q hqgood.1 hqgood.2.2
  · have hstr : List.replicate k '/' ++ joinSep '/' L =
        (List.replicate k '/' ++ joinSep '/' L.dropLast) ++ '/' :: q := by
      conv_lhs => rw [← hLdec]
      rw [joinSep_concat '/' L.dropLast q hL0]
      simp
    refine ⟨q, (List.replicate k '/' ++ joinSep '/' L.dropLast) ++ ['/'], hq, ?_, ?_⟩
    · rw [hstr]; simp
    · rw [hstr]
      exact lastComponent_append_slash _ q hqgood.1 hqgood.2.2

/-- C9: `with_suffix` round-trips with `suffix`: re-applying a path's own
suffix reproduces the path, for every constructed path value that has a name
(neither root nor empty). -/
theorem c9_with_suffix_roundtrip (s : String)
    (h1 : name (flexNew s) ≠ "") (h2 : name (flexNew s) ≠ "/") :
    withSuffix (flexNew s) (suffix (flexNew s)) = Except.ok (flexNew s) := by
  have hsne : s ≠ "" := by
    rintro rfl
    exact h1 (by decide)
  rcases normpathData_shape s.data (data_ne_nil_of_ne_empty s hsne) with hdot | ⟨L, hgood, heq, hLk⟩
  · have hxs : flexNew s = "." := by
      rw [flexNew_of_ne s hsne, hdot]
      rfl
    rw [hxs]
    rfl
  · have hxs : flexNew s = ⟨List.replicate (initialSlashes s.data) '/' ++ joinSep '/' L⟩ := by
      rw [flexNew_of_ne s hsne, heq]
    rcases Classical.em (L = []) with hLnil | hLne
    · subst hLnil
      have hk0 := hLk rfl
      have hk2 := initialSlashes_le_two s.data
      have hk12 : initialSlashes s.data = 1 ∨ initialSlashes s.data = 2 := by omega
      rw [hxs] at h1 h2
      rcases hk12 with h | h <;> rw [h] at h1 h2
      · exact absurd (by decide) h2
      · exact absurd (by decide) h1
    · obtain ⟨q, pre, hq, hdecomp, hname⟩ :=
        name_canon (initialSlashes s.data) L hLne hgood.1
      have hnx : name (flexNew s) = ⟨q⟩ := by rw [hxs]; exact hname
      have hqgood : goodPiece q := hgood.1 q (getLast?_mem_of_eq_some hq)
      have hxdata : (flexNew s).data = pre ++ q := by
        rw [hxs, string_data_mk]
        exact hdecomp
      have hn0 : ¬(name (flexNew s) = "" ∨ name (flexNew s) = "/") := by
        rintro (h | h)
        · exact h1 h
        · exact h2 h
      have hrfn : rfindSplit '.' (name (flexNew s)).data = rfindSplit '.' q := by
        rw [hnx, string_data_mk]
      have hbase : (if (name (flexNew s)).data.length ≠ (flexNew s).data.length
          then (flexNew s).data.take ((flexNew s).data.length - (name (flexNew s)).data.length)
          else []) = pre := by
        rw [hnx, string_data_mk, hxdata, List.length_append]
        by_cases hp : pre = []
        · subst hp; simp
        · have hppos : 0 < pre.length := List.length_pos.mpr hp
          rw [if_pos (by omega)]
          rw [show pre.length + q.length - q.length = pre.length from by omega]
          exact List.take_left pre q
      have hfinal : flexNew ⟨pre ++ q⟩ = flexNew s := by
        rw [← hxdata, string_mk_data]
        exact flexNew_flexNew s
      cases hrf : rfindSplit '.' q with
      | none =>
        have hsuf : suffix (flexNew s) = "" :=
          suffix_of_rfind_none _ hn0 (by rw [hrfn, hrf])
        rw [hsuf]
        unfold withSuffix
        rw [if_neg (by simp), if_neg hn0]
        simp only [hbase]
        rw [hrfn, hrf]
        simp only [hnx, string_data_mk]
        rw [show q ++ ("" : String).data = q from by simp, hfinal]
      | some ab =>
        obtain ⟨a, b⟩ := ab
        obtain ⟨hcomp, hbdot⟩ := rfindSplit_eq_some '.' q a b hrf
        by_cases ha : a = []
        · have hsuf : suffix (flexNew s) = "" := by
            rw [suffix_of_rfind (flexNew s) a b hn0 (by rw [hrfn, hrf]), if_pos ha]
          rw [hsuf]
          unfold withSuffix
          rw [if_neg (by simp), if_neg hn0]
          simp only [hbase]
          rw [hrfn, hrf]
          simp only [hnx, string_data_mk, if_pos ha]
          simp only [List.append_nil]
          rw [hfinal]
        · have hsuf : suffix (flexNew s) = ⟨'.' :: b⟩ := by
            rw [suffix_of_rfind (flexNew s) a b hn0 (by rw [hrfn, hrf]), if_neg ha]
          rw [hsuf]
          unfold withSuffix
          rw [if_neg (by simp), if_neg hn0]
          simp only [hbase]
          rw [hrfn, hrf]
          simp only [hnx, string_data_mk]
          rw [if_neg ha, show a ++ (⟨'.' :: b⟩ : String).data = q from by
            rw [string_data_mk]; exact hcomp.symm, hfinal]

/-- Witness for C9 at `/home/user/file.txt`. -/
theorem c9_with_suffix_roundtrip_witness :
    name (flexNew "/home/user/file.txt") ≠ "" ∧
    name (flexNew "/home/user/file.txt") ≠ "/" ∧
    withSuffix (flexNew "/home/user/file.txt") (suffix (flexNew "/home/user/file.txt")) =
      Except.ok (flexNew "/home/user/file.txt") :=
  ⟨by decide, by decide,
    c9_with_suffix_roundtrip "/home/user/file.txt" (by decide) (by decide)⟩

/-! ### Parents of normalized paths (claim C6) -/

theorem rstripChar_concat (c : Char) (X : List Char) :
    rstripChar c (X ++ [c]) = rstripChar c X := by
  unfold rstripChar
  rw [List.reverse_append]
  simp [List.dropWhile_cons]

theorem joinSep_slash_ne_nil (L : List (List Char)) (hL : L ≠ [])
    (hp : ∀ x ∈ L, goodPiece x) : joinSep '/' L ≠ [] := by
  cases L with
  | nil => exact absurd rfl hL
  | cons p rest =>
    obtain ⟨t, ht⟩ := joinSep_cons_exists p rest
    rw [ht]
    have hpne : p ≠ [] := (hp p (List.mem_cons_self _ _)).1
    cases p with
    | nil => exact absurd rfl hpne
    | cons c p' => simp

theorem goodList_dropLast (r : Bool) (L : List (List Char)) (h : goodList r L) :
    goodList r L.dropLast := by
  obtain ⟨hp, ⟨m, R, hEq, hR⟩, hdd⟩ := h
  have hsub : ∀ p ∈ L.dropLast, p ∈ L := fun p hp' => List.dropLast_subset _ hp'
  refine ⟨fun p hp' => hp p (hsub p hp'), ?_, fun hr hin => hdd hr (hsub _ hin)⟩
  rcases Classical.em (R = []) with hRnil | hRne
  · subst hRnil
    rw [List.append_nil] at hEq
    cases m with
    | zero => exact ⟨0, [], by rw [hEq]; rfl, by simp⟩
    | succ m' =>
      refine ⟨m', [], ?_, by simp⟩
      rw [hEq, List.replicate_succ' m' ddPiece, List.dropLast_concat, List.append_nil]
  · refine ⟨m, R.dropLast, ?_, fun hin => hR (List.dropLast_subset _ hin)⟩
    rw [hEq, List.dropLast_append_of_ne_nil _ hRne]

/-- The parent of a separator-free string is the relative marker. -/
theorem parent_no_slash (s : String) (h : '/' ∉ s.data) : parent s = "." := by
  have hs : s ≠ "/" := by
    intro hc
    rw [hc] at h
    exact h (by decide)
  unfold parent
  rw [if_neg hs, rstripChar_of_not_mem '/' s.data h]
  by_cases hnil : s.data = []
  · rw [if_pos hnil]
    decide
  · rw [if_neg hnil]
    have hd : dirnameData s.data = [] := by
      unfold dirnameData
      rw [rfindSplit_eq_none '/' s.data h]
    rw [hd]
    decide

/-- Construction is the identity on a single good component other than `..`. -/
theorem flexNew_single (nm : String) (hgp : goodPiece nm.data) (hdd : nm.data ≠ ddPiece) :
    flexNew nm = nm := by
  have hne : nm ≠ "" := fun hc => hgp.1 (by rw [hc])
  rw [flexNew_of_ne nm hne]
  have hcanon := normpathData_canon 0 [nm.data] (by omega)
    ⟨fun p hp => by rcases List.mem_singleton.mp hp with rfl; exact hgp,
     ⟨0, [nm.data], rfl, by simp only [List.mem_singleton]; exact Ne.symm hdd⟩,
     fun hc => absurd hc (by decide)⟩
    (fun hc => by simp at hc)
  have hshape : List.replicate 0 '/' ++ joinSep '/' [nm.data] = nm.data := by simp
  rw [hshape] at hcanon
  rw [hcanon, string_mk_data]

/-- The parent of a path in canonical form: the relative marker for a single
relative component, the bare root slashes for a single rooted component, and
the canonical form shortened by its last component otherwise. -/
theorem parent_canon (k : Nat) (L : List (List Char)) (hL : L ≠ [])
    (hgood : goodList (decide (k ≠ 0)) L) (hk : k ≤ 2) :
    (L.length = 1 ∧ k = 0 ∧
        parent ⟨List.replicate k '/' ++ joinSep '/' L⟩ = ".") ∨
    (L.length = 1 ∧ 1 ≤ k ∧
        parent ⟨List.replicate k '/' ++ joinSep '/' L⟩ = ⟨List.replicate k '/'⟩) ∨
    (2 ≤ L.length ∧
        parent ⟨List.replicate k '/' ++ joinSep '/' L⟩ =
          ⟨List.replicate k '/' ++ joinSep '/' L.dropLast⟩) := by
  obtain ⟨q, pre, hq, hdecomp, hname⟩ := name_canon k L hL hgood.1
  have hLdec : L.dropLast ++ [q] = L :=
    List.dropLast_append_getLast? q (Option.mem_def.mpr hq)
  have hqgood : goodPiece q := hgood.1 q (getLast?_mem_of_eq_some hq)
  have hglast : (List.replicate k '/' ++ joinSep '/' L).getLast? ≠ some '/' := by
    rw [hdecomp, List.getLast?_append_of_ne_nil pre hqgood.1]
    intro hc
    exact hqgood.2.2 (getLast?_mem_of_eq_some hc)
  have hDstr : (⟨List.replicate k '/' ++ joinSep '/' L⟩ : String) ≠ "/" := by
    intro hc
    have hdata : List.replicate k '/' ++ joinSep '/' L = ['/'] := congrArg String.data hc
    rw [hdata] at hglast
    exact hglast rfl
  have hDne : List.replicate k '/' ++ joinSep '/' L ≠ [] := by
    rw [hdecomp]
    intro hc
    exact hqgood.1 (List.append_eq_nil.mp hc).2
  unfold parent
  rw [if_neg hDstr]
  simp only [string_data_mk]
  rw [rstripChar_of_getLast_ne '/' _ hglast, if_neg hDne]
  rcases Classical.em (L.dropLast = []) with hL0 | hL0
  · -- a single component
    have hLq : L = [q] := by rw [← hLdec, hL0]; rfl
    have hlen : L.length = 1 := by rw [hLq]; rfl
    cases k with
    | zero =>
      left
      refine ⟨hlen, rfl, ?_⟩
      have hD : List.replicate 0 '/' ++ joinSep '/' L = q := by rw [hLq]; simp
      rw [hD]
      have hdir : dirnameData q = [] := by
        unfold dirnameData
        rw [rfindSplit_eq_none '/' q hqgood.2.2]
      rw [hdir]
      decide
    | succ n =>
      right; left
      refine ⟨hlen, by omega, ?_⟩
      have hD : List.replicate (n + 1) '/' ++ joinSep '/' L =
          List.replicate n '/' ++ '/' :: q := by
        rw [hLq, List.replicate_succ' n '/']
        simp
      rw [hD]
      have hdir : dirnameData (List.replicate n '/' ++ '/' :: q) =
          List.replicate (n + 1) '/' := by
        unfold dirnameData
        rw [rfindSplit_append '/' _ q hqgood.2.2]
        have hhead : List.replicate n '/' ++ ['/'] = List.replicate (n + 1) '/' :=
          (List.replicate_succ' n '/').symm
        show (if List.replicate n '/' ++ ['/'] ≠ [] ∧
              List.replicate n '/' ++ ['/'] ≠
                List.replicate (List.replicate n '/' ++ ['/']).length '/'
            then rstripChar '/' (List.replicate n '/' ++ ['/'])
            else List.replicate n '/' ++ ['/']) = List.replicate (n + 1) '/'
        rw [hhead, if_neg (by push_neg; intro _; rw [List.length_replicate])]
      rw [hdir]
      rw [if_pos (by simp)]
      have hn2 : n = 0 ∨ n = 1 := by omega
      rcases hn2 with rfl | rfl
      · decide
      · decide
  · -- at least two components
    right; right
    have hlen : 2 ≤ L.length := by
      conv_rhs => rw [← hLdec]
      rw [List.length_append]
      have := List.length_pos.mpr hL0
      simp only [List.length_singleton]
      omega
    refine ⟨hlen, ?_⟩
    have hD : List.replicate k '/' ++ joinSep '/' L =
        (List.replicate k '/' ++ joinSep '/' L.dropLast) ++ '/' :: q := by
      conv_lhs => rw [← hLdec]
      rw [joinSep_concat '/' L.dropLast q hL0]
      simp
    rw [hD]
    -- the prefix before the final component, itself in canonical form
    obtain ⟨q', pre', hq', hdecomp', _⟩ :=
      name_canon k L.dropLast hL0 (fun p hp => hgood.1 p (List.dropLast_subset _ hp))
    have hq'good : goodPiece q' :=
      hgood.1 q' (List.dropLast_subset _ (getLast?_mem_of_eq_some hq'))
    have hXlast : (List.replicate k '/' ++ joinSep '/' L.dropLast).getLast? ≠ some '/' := by
      rw [hdecomp', List.getLast?_append_of_ne_nil pre' hq'good.1]
      intro hc
      exact hq'good.2.2 (getLast?_mem_of_eq_some hc)
    have hXne : List.replicate k '/' ++ joinSep '/' L.dropLast ≠ [] := by
      rw [hdecomp']
      intro hc
      exact hq'good.1 (List.append_eq_nil.mp hc).2
    -- the first character of the first component is not a slash
    obtain ⟨p₀, L₀', hL₀⟩ : ∃ p₀ L₀', L.dropLast = p₀ :: L₀' := by
      cases hdl : L.dropLast with
      | nil => exact absurd hdl hL0
      | cons p₀ L₀' => exact ⟨p₀, L₀', rfl⟩
    have hp₀good : goodPiece p₀ :=
      hgood.1 p₀ (List.dropLast_subset _ (by rw [hL₀]; exact List.mem_cons_self _ _))
    obtain ⟨c₀, p₀', hc₀⟩ : ∃ c₀ p₀', p₀ = c₀ :: p₀' := by
      cases hp : p₀ with
      | nil => exact absurd hp hp₀good.1
      | cons c₀ p₀' => exact ⟨c₀, p₀', rfl⟩
    have hc₀slash : c₀ ≠ '/' := fun hc => hp₀good.2.2 (by rw [hc₀, hc]; exact List.mem_cons_self _ _)
    have hc₀mem : c₀ ∈ (List.replicate k '/' ++ joinSep '/' L.dropLast) ++ ['/'] := by
      obtain ⟨t, ht⟩ := joinSep_cons_exists p₀ L₀'
      rw [hL₀, ht, hc₀]
      simp
    have hdir : dirnameData ((List.replicate k '/' ++ joinSep '/' L.dropLast) ++ '/' :: q) =
        List.replicate k '/' ++ joinSep '/' L.dropLast := by
      unfold dirnameData
      rw [rfindSplit_append '/' _ q hqgood.2.2]
      show (if (List.replicate k '/' ++ joinSep '/' L.dropLast) ++ ['/'] ≠ [] ∧
            (List.replicate k '/' ++ joinSep '/' L.dropLast) ++ ['/'] ≠
              List.replicate ((List.replicate k '/' ++ joinSep '/' L.dropLast) ++ ['/']).length '/'
          then rstripChar '/' ((List.replicate k '/' ++ joinSep '/' L.dropLast) ++ ['/'])
          else (List.replicate k '/' ++ joinSep '/' L.dropLast) ++ ['/']) = _
      rw [if_pos ?_]
      · rw [rstripChar_concat, rstripChar_of_getLast_ne '/' _ hXlast]
      · constructor
        · simp
        · intro hc
          rw [hc] at hc₀mem
          exact hc₀slash (List.eq_of_mem_replicate hc₀mem)
    rw [hdir, if_pos (by simpa using hXne)]
    rw [flexNew_of_ne _ (fun hc => hXne (congrArg String.data hc)), string_data_mk]
    exact congrArg String.mk
      (normpathData_canon k L.dropLast hk (goodList_dropLast _ L hgood)
        (fun hc => absurd hc hL0))

/-- Normalizing any positive number of root slashes followed by canonical
`..`-free components keeps the components and retains two slashes exactly when
the input had exactly two. -/
theorem normpathData_slashes (m : Nat) (hm : 1 ≤ m) (L : List (List Char)) (hL : L ≠ [])
    (hgoodp : ∀ x ∈ L, goodPiece x) (hdd : ddPiece ∉ L) :
    normpathData (List.replicate m '/' ++ joinSep '/' L) =
      List.replicate (if m = 2 then 2 else 1) '/' ++ joinSep '/' L := by
  obtain ⟨p, L', rfl⟩ : ∃ p L', L = p :: L' := by
    cases L with
    | nil => exact absurd rfl hL
    | cons p L' => exact ⟨p, L', rfl⟩
  have hpg : goodPiece p := hgoodp p (List.mem_cons_self _ _)
  obtain ⟨c, p', rfl⟩ : ∃ c pr, p = c :: pr := by
    cases p with
    | nil => exact absurd rfl hpg.1
    | cons c pr => exact ⟨c, pr, rfl⟩
  have hcslash : c ≠ '/' := fun h => hpg.2.2 (h ▸ List.mem_cons_self _ _)
  obtain ⟨t, hjoin⟩ := joinSep_cons_exists (c :: p') L'
  have hsne : List.replicate m '/' ++ joinSep '/' ((c :: p') :: L') ≠ [] := by
    cases m with
    | zero => omega
    | succ n => rw [List.replicate_succ]; simp
  have hinit : initialSlashes (List.replicate m '/' ++ joinSep '/' ((c :: p') :: L')) =
      if m = 2 then 2 else 1 := by
    rw [hjoin]
    match m, hm with
    | 1, _ =>
      show initialSlashes ('/' :: (c :: (p' ++ t))) = _
      simp [initialSlashes, startsWithD, Ne.symm hcslash]
    | 2, _ =>
      show initialSlashes ('/' :: '/' :: (c :: (p' ++ t))) = _
      simp [initialSlashes, startsWithD, Ne.symm hcslash]
    | (n + 3), _ =>
      show initialSlashes ('/' :: '/' :: '/' :: (List.replicate n '/' ++ (c :: p' ++ t))) = _
      rw [if_neg (by omega)]
      simp [initialSlashes, startsWithD]
  have hsplit : splitChar '/' (List.replicate m '/' ++ joinSep '/' ((c :: p') :: L')) =
      List.replicate m [] ++ ((c :: p') :: L') := by
    rw [splitChar_replicate_append,
      splitChar_joinSep _ (by simp) (fun x hx => (hgoodp x hx).2.2)]
  have hbool : (decide ((if m = 2 then 2 else 1 : Nat) ≠ 0)) = true := by
    by_cases h2 : m = 2 <;> simp [h2]
  have hfold : (splitChar '/' (List.replicate m '/' ++ joinSep '/' ((c :: p') :: L'))).foldl
      (normStep true) [] = (c :: p') :: L' := by
    rw [hsplit, foldl_normStep_skip]
    have := foldl_normStep_id true ((c :: p') :: L') []
      (by rw [List.nil_append]; exact ⟨hgoodp, ⟨0, _, rfl, hdd⟩, fun _ => hdd⟩)
    rw [List.nil_append] at this
    exact this
  have hpathne : List.replicate (if m = 2 then 2 else 1) '/' ++
      joinSep '/' ((c :: p') :: L') ≠ [] := by
    by_cases h2 : m = 2 <;> simp [h2, List.replicate_succ]
  unfold normpathData
  rw [if_neg hsne]
  simp only [hinit, hbool, hfold]
  rw [if_neg hpathne]

theorem contains_slash_iff (l : List Char) : l.contains '/' = true ↔ '/' ∈ l := by
  simp [List.contains]

theorem name_no_slash (nm : String) (hq : nm.data ≠ []) (hs : '/' ∉ nm.data) :
    name nm = nm := by
  have := lastComponent_no_slash nm.data hq hs
  rw [string_mk_data] at this
  exact this

/-- C6 (counterexample): replacing the name of `/a`, a direct child of the
root, produces the double-slash-rooted `//b`, whose parent `//` differs from
the receiver's parent `/`, so the parent prefix is not preserved. -/
theorem c6_with_name_counterexample :
    withName (flexNew "/a") "b" = Except.ok "//b" ∧
    parent "//b" = "//" ∧ parent (flexNew "/a") = "/" ∧ ("//" : String) ≠ "/" :=
  ⟨by rfl, by decide, by decide, by decide⟩

/-- C6 (amended): `with_name` fails exactly when the new name is empty or
contains a separator, or the receiver is the root or empty path, as the claim
states; on success, provided the new name is neither `.` nor `..` (which
normalization would fold away), the result's final component is the new name,
and the parent prefix is preserved provided the receiver's parent is not a
bare root `/` or `//` (a child of the root is rebuilt as `//name`). -/
theorem c6_with_name_amended (x nm : String) :
    ((withName (flexNew x) nm).isOk = false ↔
      (nm = "" ∨ '/' ∈ nm.data ∨ flexNew x = "" ∨ flexNew x = "/")) ∧
    (∀ r, withName (flexNew x) nm = Except.ok r → nm ≠ "." → nm ≠ ".." →
      name r = nm ∧
      (parent (flexNew x) ≠ "/" → parent (flexNew x) ≠ "//" →
        parent r = parent (flexNew x))) := by
  constructor
  · unfold withName
    by_cases hg1 : nm.data.contains '/' ∨ nm = ""
    · rw [if_pos hg1]
      simp only [Except.isOk, Except.toBool, true_iff]
      rcases hg1 with h | h
      · exact Or.inr (Or.inl ((contains_slash_iff _).mp h))
      · exact Or.inl h
    · by_cases hg2 : flexNew x = "" ∨ flexNew x = "/"
      · rw [if_neg hg1, if_pos hg2]
        simp only [Except.isOk, Except.toBool, true_iff]
        rcases hg2 with h | h
        · exact Or.inr (Or.inr (Or.inl h))
        · exact Or.inr (Or.inr (Or.inr h))
      · rw [if_neg hg1, if_neg hg2]
        constructor
        · intro hok
          exfalso
          revert hok
          show (if parent (flexNew x) = "." then Except.ok (flexNew nm)
              else Except.ok (flexNew (parent (flexNew x) ++ "/" ++ nm))).isOk = false → False
          split <;> simp [Except.isOk, Except.toBool]
        · rintro (h | h | h | h)
          · exact absurd (Or.inr h) hg1
          · exact absurd (Or.inl ((contains_slash_iff _).mpr h)) hg1
          · exact absurd (Or.inl h) hg2
          · exact absurd (Or.inr h) hg2
  · intro r hok hnm1 hnm2
    unfold withName at hok
    by_cases hg1 : nm.data.contains '/' ∨ nm = ""
    · rw [if_pos hg1] at hok; exact absurd hok (by simp)
    by_cases hg2 : flexNew x = "" ∨ flexNew x = "/"
    · rw [if_neg hg1, if_pos hg2] at hok; exact absurd hok (by simp)
    rw [if_neg hg1, if_neg hg2] at hok
    push_neg at hg1 hg2
    have hslash : '/' ∉ nm.data := fun hm => hg1.1 ((contains_slash_iff _).mpr hm)
    have hnmgood : goodPiece nm.data :=
      ⟨fun hc => hg1.2 (string_eq_of_data nm "" hc),
       fun hc => hnm1 (string_eq_of_data nm "." hc),
       hslash⟩
    have hnmdd : nm.data ≠ ddPiece := fun hc => hnm2 (string_eq_of_data nm ".." hc)
    have hflexnm : flexNew nm = nm := flexNew_single nm hnmgood hnmdd
    by_cases hp : parent (flexNew x) = "."
    · rw [if_pos hp] at hok
      have hrval : r = nm := by rw [← Except.ok.inj hok, hflexnm]
      refine ⟨?_, ?_⟩
      · rw [hrval]
        exact name_no_slash nm hnmgood.1 hslash
      · intro _ _
        rw [hrval, hp]
        exact parent_no_slash nm hslash
    · rw [if_neg hp] at hok
      have hrval : r = flexNew (parent (flexNew x) ++ "/" ++ nm) := (Except.ok.inj hok).symm
      have hxne : x ≠ "" := fun hc => hg2.1 (by rw [hc]; rfl)
      rcases normpathData_shape x.data (data_ne_nil_of_ne_empty x hxne) with hdot |
        ⟨L, hgood, heq, hLk⟩
      · have hx' : flexNew x = "." := by
          rw [flexNew_of_ne x hxne, hdot]
          rfl
        exact absurd (by rw [hx']; try decide) hp
      · have hx' : flexNew x = ⟨List.replicate (initialSlashes x.data) '/' ++ joinSep '/' L⟩ := by
          rw [flexNew_of_ne x hxne, heq]
        have hk2 := initialSlashes_le_two x.data
        rcases Classical.em (L = []) with hLnil | hLne
        · subst hLnil
          have hk0 := hLk rfl
          have hk12 : initialSlashes x.data = 1 ∨ initialSlashes x.data = 2 := by omega
          rcases hk12 with h | h <;> rw [h] at hx'
          · exact absurd (by rw [hx']; try decide) hg2.2
          · exact absurd (show parent (flexNew x) = "." by rw [hx']; try decide) hp
        · rcases parent_canon (initialSlashes x.data) L hLne hgood hk2 with
            ⟨_, _, hpx⟩ | ⟨_, hk1, hpx⟩ | ⟨hlen2, hpx⟩
          · rw [← hx'] at hpx
            exact absurd hpx hp
          · -- single rooted component: the parent is a bare root
            rw [← hx'] at hpx
            have hK12 : initialSlashes x.data = 1 ∨ initialSlashes x.data = 2 := by omega
            refine ⟨?_, ?_⟩
            · -- the final component of the rebuilt path is the new name
              rw [hrval, hpx]
              have hdata : ((⟨List.replicate (initialSlashes x.data) '/'⟩ : String) ++ "/" ++ nm).data =
                  List.replicate (initialSlashes x.data + 1) '/' ++ nm.data := by
                rw [string_data_append, string_data_append, string_data_mk]
                rw [List.replicate_succ' (initialSlashes x.data) '/']
              have hfd : flexNew ((⟨List.replicate (initialSlashes x.data) '/'⟩ : String) ++ "/" ++ nm) =
                  ⟨List.replicate (if initialSlashes x.data + 1 = 2 then 2 else 1) '/' ++ nm.data⟩ := by
                rw [flexNew_of_ne _ (by
                  intro hc
                  have := congrArg String.data hc
                  rw [hdata] at this
                  rcases hK12 with h | h <;> rw [h] at this <;> simp [List.replicate_succ] at this)]
                rw [hdata]
                have := normpathData_slashes (initialSlashes x.data + 1) (by omega) [nm.data]
                  (by simp)
                  (fun p hp' => by rcases List.mem_singleton.mp hp' with rfl; exact hnmgood)
                  (by simp only [List.mem_singleton]; exact Ne.symm hnmdd)
                rw [show joinSep '/' [nm.data] = nm.data from rfl] at this
                rw [this]
              rw [hfd]
              rcases hK12 with h | h <;> rw [h]
              · show name ⟨List.replicate 2 '/' ++ nm.data⟩ = nm
                have := lastComponent_append_slash ['/'] nm.data hnmgood.1 hslash
                rw [show (['/'] : List Char) ++ '/' :: nm.data =
                    List.replicate 2 '/' ++ nm.data from rfl] at this
                rw [show name ⟨List.replicate 2 '/' ++ nm.data⟩ =
                    lastComponent ⟨List.replicate 2 '/' ++ nm.data⟩ from rfl, this,
                  string_mk_data]
              · show name ⟨List.replicate 1 '/' ++ nm.data⟩ = nm
                have := lastComponent_append_slash [] nm.data hnmgood.1 hslash
                rw [show ([] : List Char) ++ '/' :: nm.data =
                    List.replicate 1 '/' ++ nm.data from rfl] at this
                rw [show name ⟨List.replicate 1 '/' ++ nm.data⟩ =
                    lastComponent ⟨List.replicate 1 '/' ++ nm.data⟩ from rfl, this,
                  string_mk_data]
            · -- the parent is a bare root, excluded by the amended hypotheses
              intro hq1 hq2
              exfalso
              rcases hK12 with h | h <;> rw [h] at hpx
              · exact hq1 (by rw [hpx]; decide)
              · exact hq2 (by rw [hpx]; decide)
          · -- at least two components: the parent prefix is preserved verbatim
            rw [← hx'] at hpx
            have hL0ne : L.dropLast ≠ [] := by
              intro hc
              have := congrArg List.length hc
              rw [List.length_dropLast] at this
              simp at this
              omega
            obtain ⟨hgp0, ⟨m, R, hEq0, hR0⟩, habs0⟩ := goodList_dropLast _ L hgood
            have hnewgood : goodList (decide (initialSlashes x.data ≠ 0)) (L.dropLast ++ [nm.data]) := by
              refine ⟨?_, ⟨m, R ++ [nm.data], ?_, ?_⟩, ?_⟩
              · intro p hp'
                rcases List.mem_append.mp hp' with h | h
                · exact hgp0 p h
                · rcases List.mem_singleton.mp h with rfl; exact hnmgood
              · rw [hEq0, List.append_assoc]
              · intro hin
                rcases List.mem_append.mp hin with h | h
                · exact hR0 h
                · rcases List.mem_singleton.mp h with h'
                  exact hnmdd h'.symm
              · intro hr hin
                rcases List.mem_append.mp hin with h | h
                · exact habs0 hr h
                · rcases List.mem_singleton.mp h with h'
                  exact hnmdd h'.symm
            have hrdata : ((⟨List.replicate (initialSlashes x.data) '/' ++
                joinSep '/' L.dropLast⟩ : String) ++ "/" ++ nm).data =
                List.replicate (initialSlashes x.data) '/' ++
                  joinSep '/' (L.dropLast ++ [nm.data]) := by
              rw [string_data_append, string_data_append, string_data_mk,
                joinSep_concat '/' L.dropLast nm.data hL0ne]
              simp
            have hrne : List.replicate (initialSlashes x.data) '/' ++
                joinSep '/' (L.dropLast ++ [nm.data]) ≠ [] := by
              intro hc
              rcases List.append_eq_nil.mp hc with ⟨_, hj⟩
              exact joinSep_slash_ne_nil (L.dropLast ++ [nm.data]) (by simp)
                (fun p hp' => hnewgood.1 p hp') hj
            have hfd : flexNew ((⟨List.replicate (initialSlashes x.data) '/' ++
                joinSep '/' L.dropLast⟩ : String) ++ "/" ++ nm) =
                ⟨List.replicate (initialSlashes x.data) '/' ++
                  joinSep '/' (L.dropLast ++ [nm.data])⟩ := by
              rw [flexNew_of_ne _ (by
                intro hc
                exact hrne (by rw [← hrdata]; exact congrArg String.data hc))]
              rw [hrdata]
              exact congrArg String.mk
                (normpathData_canon _ _ hk2 hnewgood (fun hc => absurd hc (by simp)))
            refine ⟨?_, ?_⟩
            · rw [hrval, hpx, hfd]
              obtain ⟨q2, pre2, hq2, hdecomp2, hname2⟩ :=
                name_canon (initialSlashes x.data) (L.dropLast ++ [nm.data]) (by simp)
                  (fun p hp' => hnewgood.1 p hp')
              rw [List.getLast?_concat] at hq2
              have hq2' : q2 = nm.data := (Option.some.inj hq2).symm
              subst hq2'
              show lastComponent _ = nm
              rw [hname2, string_mk_data]
            · intro _ _
              rw [hrval, hpx, hfd]
              rcases parent_canon (initialSlashes x.data) (L.dropLast ++ [nm.data]) (by simp)
                hnewgood hk2 with ⟨hl1, _, _⟩ | ⟨hl1, _, _⟩ | ⟨_, hpr⟩
              · exfalso
                rw [List.length_append, List.length_singleton] at hl1
                have := List.length_pos.mpr hL0ne
                omega
              · exfalso
                rw [List.length_append, List.length_singleton] at hl1
                have := List.length_pos.mpr hL0ne
                omega
              · rw [hpr, List.dropLast_concat]

/-- Witness for the amended C6 at receiver `/a/c` with new name `b`. -/
theorem c6_with_name_amended_witness :
    withName (flexNew "/a/c") "b" = Except.ok "/a/b" ∧
    name "/a/b" = "b" ∧ parent "/a/b" = parent (flexNew "/a/c") := by
  have h := (c6_with_name_amended "/a/c" "b").2 "/a/b" (by rfl) (by decide) (by decide)
  exact ⟨by rfl, h.1, h.2 (by decide) (by decide)⟩
